import Mathlib

/-!
Verification of the endurance module-discovery and versioned route-mounting
engine (src/internal/app.ts), as a shallow embedding in Lean 4.

The embedding models:
* the filesystem as a finite tree (`FSTree`), with readdir / exists / isDirectory;
* JS string operations used by the source (endsWith, startsWith, first-occurrence
  replace, the version-extraction regex, numeric-aware localeCompare);
* the walker (`readModulesFolder` / `processFile`), the middleware-only phase-1
  walker (`loadMiddlewaresOnly`), marketplace module discovery, and the final
  version-sorted mounting loop (`mountAll`), all producing an explicit event
  trace (`Ev`) plus the accumulated route table, threaded exactly as in the code;
* dynamic-import outcomes through an oracle (`Config.loadResult`);
* request dispatch over the mounted layers, with one fallback-rewrite hop.

Fuel makes the recursive walkers total; every structural theorem is proved for
all fuel values.
-/

namespace Endurance

/-- Models JS `String.prototype.startsWith` at the character-list level. -/
def strHasPre : List Char → List Char → Bool
  | [], _ => true
  | _ :: _, [] => false
  | a :: as, b :: bs => a == b && strHasPre as bs

/-- Models JS `String.prototype.endsWith`. -/
def jsEndsWith (s sfx : String) : Bool :=
  strHasPre sfx.data.reverse s.data.reverse

/-- Models JS `String.prototype.startsWith`. -/
def jsStartsWith (s pre : String) : Bool :=
  strHasPre pre.data s.data

/-- A filesystem node: a plain file (content irrelevant to the engine) or a
directory with a list of named children in directory-listing order. -/
inductive FSTree where
  | file : FSTree
  | dir (entries : List (String × FSTree)) : FSTree

/-- Look a path (segment list) up in the tree. -/
def FSTree.lookup (t : FSTree) : List String → Option FSTree
  | [] => some t
  | seg :: rest =>
    match t with
    | FSTree.file => none
    | FSTree.dir es =>
      match es.find? (fun e => e.1 == seg) with
      | some e => FSTree.lookup e.2 rest
      | none => none

/-- Models `fs.readdirSync` (returns `none` when it would throw). -/
def readdir (fs : FSTree) (p : List String) : Option (List String) :=
  match fs.lookup p with
  | some (FSTree.dir es) => some (es.map (fun e => e.1))
  | _ => none

/-- Models `fs.existsSync`. -/
def pathExists (fs : FSTree) (p : List String) : Bool :=
  (fs.lookup p).isSome

/-- Models `fs.existsSync(p) && fs.statSync(p).isDirectory()`. -/
def isDir (fs : FSTree) (p : List String) : Bool :=
  match fs.lookup p with
  | some (FSTree.dir _) => true
  | _ => false

/-- Models `path.join` over the segments of a path. -/
def joinPath (p : List String) : String := String.intercalate "/" p

/-- The source applies JS `endsWith` to whole joined folder paths
(e.g. `endsWith(folderPath, 'routes')`); this is that test. -/
def pEndsWith (p : List String) (sfx : String) : Bool :=
  jsEndsWith (joinPath p) sfx

/-- Split off the maximal leading digit run, as the regex engine does when
matching a greedy `\d+`. -/
def takeDigits : List Char → List Char × List Char
  | [] => ([], [])
  | c :: cs =>
    if c.isDigit then
      let r := takeDigits cs
      (c :: r.1, r.2)
    else ([], c :: cs)

/-- After the first digit run, the alternative `\d+\.\d+\.\d+` of the version
regex succeeds exactly when two further dot-separated digit runs follow
immediately; otherwise the match falls back to the plain `\d+` run. -/
def tripleExtend (r1 : List Char) (rest : List Char) : List Char :=
  if rest.head? = some '.' then
    if (takeDigits rest.tail).1.isEmpty then r1
    else
      if (takeDigits rest.tail).2.head? = some '.' then
        if (takeDigits (takeDigits rest.tail).2.tail).1.isEmpty then r1
        else
          r1 ++ '.' :: ((takeDigits rest.tail).1 ++
            '.' :: (takeDigits (takeDigits rest.tail).2.tail).1)
      else r1
  else r1

/-- Leftmost match of the captured group of `/v?(\d+\.\d+\.\d+|\d+)/`: the
optional `v` does not alter the captured token, so the capture is the leftmost
digit run, triple-extended when possible. -/
def findTok : List Char → Option (List Char)
  | [] => none
  | c :: cs =>
    if c.isDigit then
      let pr := takeDigits (c :: cs)
      some (tripleExtend pr.1 pr.2)
    else findTok cs

/-- Models `extractVersion` (app.ts lines 146-149). -/
def extractVersion (s : String) : Option String :=
  match findTok s.data with
  | some cs => some (String.mk cs)
  | none => none

/-- Remove the first occurrence of `pat` (here always nonempty), as JS
`String.prototype.replace` with a string pattern and empty replacement does. -/
def replFirstAux (pat : List Char) : List Char → List Char
  | [] => []
  | c :: cs =>
    if strHasPre pat (c :: cs) then List.drop pat.length (c :: cs)
    else c :: replFirstAux pat cs

/-- Models JS `s.replace(pat, '')` for a nonempty string pattern. -/
def jsReplaceFirst (s pat : String) : String :=
  String.mk (replFirstAux pat.data s.data)

/-- Models `path.basename(file, suffix)`: strips the suffix when the name ends
with it and is not the suffix itself. -/
def basenameStrip (file sfx : String) : String :=
  if file == sfx then file
  else if jsEndsWith file sfx then String.mk (file.data.take (file.data.length - sfx.data.length))
  else file

/-- The (basePath, version-key) pair `processFile` derives from a route file
stem (app.ts lines 201-208): `version` is `extractVersion`, the base path is
`'/' + routerName.replace('.' + version, '')` — where a null version is
interpolated as the literal string `"null"` — and a null version registers
under the key `"default"`. -/
def routeParse (stem : String) : String × String :=
  let ver := extractVersion stem
  let verStr := match ver with | some v => v | none => "null"
  let verKey := match ver with | some v => v | none => "default"
  ("/" ++ jsReplaceFirst stem ("." ++ verStr), verKey)

/-- Outcome of a dynamic `import()` of a unit: `LoadErr.simple` models an
ordinary thrown error (one message), `LoadErr.aggregate` an `AggregateError`
with the messages of its constituent causes. -/
inductive LoadErr where
  | simple (msg : String) : LoadErr
  | aggregate (msgs : List String) : LoadErr
deriving DecidableEq

/-- The import oracle: which file paths load cleanly (`none`) and which throw. -/
structure Config where
  loadResult : String → Option LoadErr

/-- Observable events of a startup run, in execution order. -/
inductive Ev where
  | importMw (p : String) : Ev
  | importUnit (p : String) : Ev
  | importRoute (p : String) : Ev
  | staticMount (folder : String) : Ev
  | routeReg (basePath version file : String) : Ev
  | mountRoute (mountPath file : String) : Ev
  | mountFallback (fallbackPath previousPath : String) : Ev
  | logErr (msg : String) : Ev
deriving DecidableEq

/-- The file path an event loads, registers or mounts, when it carries one. -/
def evPath : Ev → Option String
  | Ev.importMw p => some p
  | Ev.importUnit p => some p
  | Ev.importRoute p => some p
  | Ev.routeReg _ _ f => some f
  | Ev.mountRoute _ f => some f
  | _ => none

/-- Association-list model of a JS `Map`: `set` preserves insertion order and
overwrites in place. -/
def setKV {α : Type} (m : List (String × α)) (k : String) (v : α) : List (String × α) :=
  match m with
  | [] => [(k, v)]
  | e :: rest => if e.1 == k then (k, v) :: rest else e :: setKV rest k v

/-- Association-list model of `Map.get`. -/
def getKV {α : Type} (m : List (String × α)) (k : String) : Option α :=
  match m.find? (fun e => e.1 == k) with
  | some e => some e.2
  | none => none

/-- Inner map of a base path: version key to registered file path. -/
abbrev VMap := List (String × String)

/-- The `routesMap` accumulator: base path to its version map. -/
abbrev RoutesMap := List (String × VMap)

/-- Models lines 205-208: create the inner map if missing, then
`routesMap.get(basePath).set(version or default, filePath)`. -/
def registerRoute (m : RoutesMap) (bp verKey fp : String) : RoutesMap :=
  match getKV m bp with
  | some vm => setKV m bp (setKV vm verKey fp)
  | none => setKV m bp (setKV [] verKey fp)

/-- Lookup of a (basePath, version) registration. -/
def lookupRoute (m : RoutesMap) (bp verKey : String) : Option String :=
  match getKV m bp with
  | some vm => getKV vm verKey
  | none => none

/-- The override-resolved entry a walked file contributes (app.ts lines
228-233): folder and physical path switch to the local override when a node
exists at the override location. -/
structure Entry where
  folder : List String
  name : String
  actual : List String
deriving DecidableEq

/-- Models lines 228-233 for one directory entry. -/
def classifyEntry (fs : FSTree) (folder ovr : List String) (name : String) : Entry :=
  let base := folder ++ [name]
  let hasOvr := !ovr.isEmpty && pathExists fs (ovr ++ [name])
  if hasOvr then ⟨ovr, name, ovr ++ [name]⟩ else ⟨folder, name, base⟩

/-- The four buckets `readModulesFolder` separates a directory listing into
(lines 216-243): subdirectory names, middleware files, router files, and
everything else, each in listing order. -/
structure Buckets where
  dirNames : List String
  mws : List Entry
  routers : List Entry
  others : List Entry
deriving DecidableEq

/-- Models the separation loop, lines 222-243. -/
def bucketize (fs : FSTree) (folder ovr : List String) : List String → Buckets
  | [] => ⟨[], [], [], []⟩
  | name :: rest =>
    let b := bucketize fs folder ovr rest
    if isDir fs (folder ++ [name]) then
      ⟨name :: b.dirNames, b.mws, b.routers, b.others⟩
    else
      if jsEndsWith name ".middleware.js" &&
          pEndsWith (classifyEntry fs folder ovr name).folder "middlewares" then
        ⟨b.dirNames, classifyEntry fs folder ovr name :: b.mws, b.routers, b.others⟩
      else if jsEndsWith name ".router.js" &&
          pEndsWith (classifyEntry fs folder ovr name).folder "routes" then
        ⟨b.dirNames, b.mws, classifyEntry fs folder ovr name :: b.routers, b.others⟩
      else
        ⟨b.dirNames, b.mws, b.routers, classifyEntry fs folder ovr name :: b.others⟩

/-- Does the entry satisfy the four-way import condition of lines 189-194
(listener, consumer, middleware or cron in the correspondingly named folder)? -/
def importCond (e : Entry) : Bool :=
  (jsEndsWith e.name ".listener.js" && pEndsWith e.folder "listeners") ||
  (jsEndsWith e.name ".consumer.js" && pEndsWith e.folder "consumers") ||
  (jsEndsWith e.name ".middleware.js" && pEndsWith e.folder "middlewares") ||
  (jsEndsWith e.name ".cron.js" && pEndsWith e.folder "crons")

/-- Which import event the line 196 import of an entry produces: a middleware
unit or another (listener / consumer / cron) unit. -/
def mkImportEv (e : Entry) (p : String) : Ev :=
  if jsEndsWith e.name ".middleware.js" && pEndsWith e.folder "middlewares" then Ev.importMw p
  else Ev.importUnit p

mutual

/-- Models `processFile` (app.ts lines 182-211) on an override-resolved entry,
producing its event trace and updated route table. -/
def processFile (cfg : Config) (fs : FSTree) : Nat → Entry → RoutesMap → List Ev × RoutesMap
  | 0, _, routes => ([], routes)
  | Nat.succ n, e, routes =>
    if isDir fs e.actual then
      readModulesFolder cfg fs n e.actual e.actual false routes
    else if pEndsWith e.folder "public" then
      ([Ev.staticMount (joinPath e.folder)], routes)
    else if importCond e then
      let p := joinPath e.actual
      (match cfg.loadResult p with
       | none => ([mkImportEv e p], routes)
       | some _ => ([mkImportEv e p, Ev.logErr ("Error loading file " ++ p ++ ":")], routes))
    else if jsEndsWith e.name ".router.js" && pEndsWith e.folder "routes" then
      let pr := routeParse (basenameStrip e.name ".router.js")
      ([Ev.routeReg pr.1 pr.2 (joinPath e.actual)],
       registerRoute routes pr.1 pr.2 (joinPath e.actual))
    else ([], routes)

/-- Models `readModulesFolder` (app.ts lines 213-285): bucket the listing, then
process middleware files (unless skipped), then other files, then recurse into
subdirectories, and register router files last. -/
def readModulesFolder (cfg : Config) (fs : FSTree) :
    Nat → List String → List String → Bool → RoutesMap → List Ev × RoutesMap
  | 0, _, _, _, routes => ([], routes)
  | Nat.succ n, folder, ovr, skipMw, routes =>
    match readdir fs folder with
    | none => ([Ev.logErr "Error reading directory:"], routes)
    | some files =>
      let b := bucketize fs folder ovr files
      let s1 := if skipMw then (([] : List Ev), routes) else pfFold cfg fs n b.mws routes
      let s2 := pfFold cfg fs n b.others s1.2
      let s3 := dirFold cfg fs n folder ovr skipMw b.dirNames s2.2
      let s4 := pfFold cfg fs n b.routers s3.2
      (s1.1 ++ s2.1 ++ s3.1 ++ s4.1, s4.2)

/-- The per-bucket loop: `processFile` on each entry in order, threading the
route table. -/
def pfFold (cfg : Config) (fs : FSTree) : Nat → List Entry → RoutesMap → List Ev × RoutesMap
  | 0, _, routes => ([], routes)
  | Nat.succ _, [], routes => ([], routes)
  | Nat.succ n, e :: es, routes =>
    let r1 := processFile cfg fs n e routes
    let r2 := pfFold cfg fs n es r1.2
    (r1.1 ++ r2.1, r2.2)

/-- The subdirectory loop of lines 266-272: recurse with the mirrored override
sub-path (or none when overriding is disabled). -/
def dirFold (cfg : Config) (fs : FSTree) :
    Nat → List String → List String → Bool → List String → RoutesMap → List Ev × RoutesMap
  | 0, _, _, _, _, routes => ([], routes)
  | Nat.succ _, _, _, _, [], routes => ([], routes)
  | Nat.succ n, folder, ovr, skipMw, d :: ds, routes =>
    let sub := readModulesFolder cfg fs n (folder ++ [d])
      (if ovr.isEmpty then [] else ovr ++ [d]) skipMw routes
    let r2 := dirFold cfg fs n folder ovr skipMw ds sub.2
    (sub.1 ++ r2.1, r2.2)

end

/-- The override-resolved physical path phase 1 imports for a middleware file
(app.ts lines 345-349). -/
def lmoActual (fs : FSTree) (folder ovr : List String) (name : String) : List String :=
  if !ovr.isEmpty && pathExists fs (ovr ++ [name]) then ovr ++ [name]
  else folder ++ [name]

mutual

/-- Models `loadMiddlewaresOnly` (app.ts lines 337-361): walk a module tree
and import only its middleware files, override-resolved; directory read errors
are silently ignored. -/
def loadMiddlewaresOnly (cfg : Config) (fs : FSTree) : Nat → List String → List String → List Ev
  | 0, _, _ => []
  | Nat.succ n, folder, ovr =>
    match readdir fs folder with
    | none => []
    | some files => lmoFold cfg fs n folder ovr files

/-- The per-entry loop of `loadMiddlewaresOnly`. -/
def lmoFold (cfg : Config) (fs : FSTree) : Nat → List String → List String → List String → List Ev
  | 0, _, _, _ => []
  | Nat.succ _, _, _, [] => []
  | Nat.succ n, folder, ovr, name :: rest =>
    let here :=
      if isDir fs (folder ++ [name]) then
        loadMiddlewaresOnly cfg fs n (folder ++ [name]) (if ovr.isEmpty then [] else ovr ++ [name])
      else if jsEndsWith name ".middleware.js" && pEndsWith folder "middlewares" then
        let p := joinPath (lmoActual fs folder ovr name)
        (match cfg.loadResult p with
         | none => [Ev.importMw p]
         | some _ => [Ev.importMw p, Ev.logErr ("Error loading middleware " ++ name ++ ":")])
      else []
    here ++ lmoFold cfg fs n folder ovr rest

end

/-- A marketplace module's effective content root (app.ts lines 300-306): the
`dist` subfolder when it is a directory, else the module root. -/
def contentRootOf (fs : FSTree) (p : List String) : List String :=
  if isDir fs (p ++ ["dist"]) then p ++ ["dist"] else p

/-- A discovered marketplace module: its (possibly scoped) name segments and
its content root. -/
structure ModEntry where
  nameParts : List String
  root : List String
deriving DecidableEq

/-- Scan the packages of one scope for `edrm-` modules (lines 309-325). -/
def scanScopedPkgs (fs : FSTree) (scope : String) : List String → List ModEntry
  | [] => []
  | pkg :: rest =>
    (if jsStartsWith pkg "edrm-" && isDir fs ["node_modules", scope, pkg] then
      [⟨[scope, pkg], contentRootOf fs ["node_modules", scope, pkg]⟩]
     else []) ++ scanScopedPkgs fs scope rest

/-- Scan the top of `node_modules` for `edrm-` modules and scopes (296-326). -/
def scanRoot (fs : FSTree) : List String → List ModEntry
  | [] => []
  | name :: rest =>
    ((if jsStartsWith name "edrm-" && isDir fs ["node_modules", name] then
        [⟨[name], contentRootOf fs ["node_modules", name]⟩]
      else []) ++
     (if jsStartsWith name "@" && isDir fs ["node_modules", name] then
        match readdir fs ["node_modules", name] with
        | some pkgs => scanScopedPkgs fs name pkgs
        | none => []
      else [])) ++ scanRoot fs rest

/-- Phase 1 of `loadMarketplaceModules` (lines 330-364): middleware-only walk
of every module, override root `modules/<name>`. -/
def phase1 (cfg : Config) (fs : FSTree) (fuel : Nat) : List ModEntry → List Ev
  | [] => []
  | m :: rest =>
    loadMiddlewaresOnly cfg fs fuel m.root ("modules" :: m.nameParts) ++
    phase1 cfg fs fuel rest

/-- Phase 2 (lines 369-380): full walk of every module with middleware loading
skipped. -/
def phase2 (cfg : Config) (fs : FSTree) (fuel : Nat) : List ModEntry → RoutesMap → List Ev × RoutesMap
  | [], routes => ([], routes)
  | m :: rest, routes =>
    let s := readModulesFolder cfg fs fuel m.root ("modules" :: m.nameParts) true routes
    let r := phase2 cfg fs fuel rest s.2
    (s.1 ++ r.1, r.2)

/-- Models `loadMarketplaceModules` (lines 287-384). -/
def loadMarketplaceModules (cfg : Config) (fs : FSTree) (fuel : Nat) (routes : RoutesMap) :
    List Ev × RoutesMap :=
  match readdir fs ["node_modules"] with
  | none => ([Ev.logErr "Error reading node_modules:"], routes)
  | some names =>
    let mods := scanRoot fs names
    let e1 := phase1 cfg fs fuel mods
    let s2 := phase2 cfg fs fuel mods routes
    (e1 ++ s2.1, s2.2)

/-- Numeric value of a digit run. -/
def digitsValAux (acc : Nat) : List Char → Nat
  | [] => acc
  | c :: cs => digitsValAux (10 * acc + (c.toNat - 48)) cs

/-- Numeric value of a digit run (most significant digit first). -/
def digitsVal (l : List Char) : Nat := digitsValAux 0 l

/-- Maximal same-class (digit / non-digit) runs of a string, in order. -/
def chunksOf : List Char → List (Bool × List Char)
  | [] => []
  | c :: cs =>
    match chunksOf cs with
    | [] => [(c.isDigit, [c])]
    | (b, run) :: rest =>
      if b == c.isDigit then (b, c :: run) :: rest
      else (c.isDigit, [c]) :: (b, run) :: rest

/-- Case-insensitive character-wise comparison (sensitivity `base`). -/
def textCmp : List Char → List Char → Ordering
  | [], [] => Ordering.eq
  | [], _ :: _ => Ordering.lt
  | _ :: _, [] => Ordering.gt
  | a :: as, b :: bs =>
    match compare a.toLower b.toLower with
    | Ordering.eq => textCmp as bs
    | o => o

/-- Chunk-wise comparison: digit runs by numeric value, other runs textually. -/
def chunkCmp : List (Bool × List Char) → List (Bool × List Char) → Ordering
  | [], [] => Ordering.eq
  | [], _ :: _ => Ordering.lt
  | _ :: _, [] => Ordering.gt
  | (true, ra) :: as, (true, rb) :: bs =>
    (match compare (digitsVal ra) (digitsVal rb) with
     | Ordering.eq => chunkCmp as bs
     | o => o)
  | (_, ra) :: as, (_, rb) :: bs =>
    (match textCmp ra rb with
     | Ordering.eq => chunkCmp as bs
     | o => o)

/-- Models `a.localeCompare(b, undefined, { numeric: true, sensitivity: 'base' })`. -/
def localeNumericCmp (a b : String) : Ordering :=
  chunkCmp (chunksOf a.data) (chunksOf b.data)

/-- Orderings as the sign of a JS comparator result. -/
def ordToInt : Ordering → Int
  | Ordering.lt => -1
  | Ordering.eq => 0
  | Ordering.gt => 1

/-- The version comparator of lines 398-402: `default` first, then
numeric-aware string comparison. -/
def sortCmp (a b : String) : Int :=
  if a == "default" then -1
  else if b == "default" then 1
  else ordToInt (localeNumericCmp a b)

/-- Stable insertion with respect to `sortCmp`: the new element goes after
every element not strictly greater. -/
def sInsert (x : String) : List String → List String
  | [] => [x]
  | y :: ys => if sortCmp y x ≤ 0 then y :: sInsert x ys else x :: y :: ys

/-- Models `Array.from(keys).sort(comparator)` (a stable sort). -/
def jsSortVers (l : List String) : List String :=
  l.foldl (fun acc x => sInsert x acc) []

/-- The sorted version list of one base path (line 398). -/
def sortedKeys (vm : VMap) : List String := jsSortVers (vm.map (fun e => e.1))

/-- The log header of line 158. -/
def routeErrHeader (f : String) : String := "Error loading routes from " ++ f ++ ":"

/-- The mount path of line 154: `/v{version}{basePath}` or plain `basePath`. -/
def versionedPathOf (bp : String) : Option String → String
  | some v => "/v" ++ v ++ bp
  | none => bp

/-- Models `loadRoutes` (lines 151-174): import the route file, mount on
success; on failure log the header with the file path, then each constituent
cause of an aggregate error (or the single error) — and never mount. -/
def loadRoutesEv (cfg : Config) (bp file : String) (ver : Option String) : List Ev :=
  match cfg.loadResult file with
  | none => [Ev.importRoute file, Ev.mountRoute (versionedPathOf bp ver) file]
  | some (LoadErr.simple m) => [Ev.importRoute file, Ev.logErr (routeErrHeader file), Ev.logErr m]
  | some (LoadErr.aggregate ms) =>
    Ev.importRoute file :: Ev.logErr (routeErrHeader file) :: ms.map Ev.logErr

/-- The file the mounting loop loads for a version key (the `!`-asserted map
lookup of lines 406 and 408; the empty string stands for the impossible miss). -/
def chainFile (vm : VMap) (v : String) : String :=
  match getKV vm v with
  | some f => f
  | none => ""

/-- The version argument `loadRoutes` receives: `null` for the default key,
the literal key otherwise (lines 405-409). -/
def chainVer (v : String) : Option String :=
  if v == "default" then none else some v

/-- Models the indexed loop of lines 403-421 over one base path's sorted
versions, carrying the previous version: load and mount each version, and
after the first also install the fallback rewrite to
`/v{previousVersion}{basePath}` — unconditionally, whatever the load outcome. -/
def mountChain (cfg : Config) (bp : String) (vm : VMap) : List String → Option String → List Ev
  | [], _ => []
  | v :: rest, prevOpt =>
    let evs := loadRoutesEv cfg bp (chainFile vm v) (chainVer v)
    let fb := match prevOpt with
      | none => []
      | some p => [Ev.mountFallback ("/v" ++ v ++ bp) ("/v" ++ p ++ bp)]
    evs ++ fb ++ mountChain cfg bp vm rest (some v)

/-- Models the mounting loop of lines 397-422 over the whole route table. -/
def mountAll (cfg : Config) : RoutesMap → List Ev
  | [] => []
  | (bp, vm) :: rest => mountChain cfg bp vm (sortedKeys vm) none ++ mountAll cfg rest

/-- The discovery part of `loadServer` (lines 386-395): marketplace modules
(both phases), then the local tree (`dist/modules` when it is a directory,
else `src/modules`, no override). -/
def serverWalk (cfg : Config) (fs : FSTree) (fuel : Nat) : List Ev × RoutesMap :=
  let s1 := loadMarketplaceModules cfg fs fuel []
  let s2 :=
    if isDir fs ["dist", "modules"] then
      readModulesFolder cfg fs fuel ["dist", "modules"] [] false s1.2
    else
      readModulesFolder cfg fs fuel ["src", "modules"] [] false s1.2
  (s1.1 ++ s2.1, s2.2)

/-- Models `loadServer` (lines 176-448): the discovery walks followed by the
version-sorted mounting loop over the accumulated table. -/
def loadServer (cfg : Config) (fs : FSTree) (fuel : Nat) : List Ev :=
  (serverWalk cfg fs fuel).1 ++ mountAll cfg (serverWalk cfg fs fuel).2

/-- A mounted layer of the express app, in registration order: a versioned
router, or a fallback rewrite middleware. -/
inductive Layer where
  | route (mountPath file : String) : Layer
  | fallback (fallbackPath previousPath : String) : Layer
deriving DecidableEq

/-- The layers a trace registers on the app, in order. -/
def layersOf : List Ev → List Layer
  | [] => []
  | Ev.mountRoute mp f :: r => Layer.route mp f :: layersOf r
  | Ev.mountFallback fp pp :: r => Layer.fallback fp pp :: layersOf r
  | _ :: r => layersOf r

/-- Mount-point matching of the handler-mounting collaborator: a layer mounted
at `mount` matches a request url equal to it or continuing with `/`, and the
handler sees the remaining suffix. -/
def stripMount (mount url : String) : Option String :=
  if strHasPre mount.data url.data then
    match url.data.drop mount.data.length with
    | [] => some ""
    | '/' :: rest => some (String.mk ('/' :: rest))
    | _ => none
  else none

/-- One pass over the layer list: a router layer handles the request when its
mount matches and its handler (the predicate `H`, keyed by the route file)
accepts the suffix; a matching fallback layer rewrites the suffix onto its
previous path and hands the rewritten url to `onFallback`. -/
def scanPass (H : String → String → Bool) (onFallback : String → Option String) :
    List Layer → String → Option String
  | [], _ => none
  | Layer.route mp f :: rest, url =>
    (match stripMount mp url with
     | some sfx => if H f sfx then some f else scanPass H onFallback rest url
     | none => scanPass H onFallback rest url)
  | Layer.fallback fp pp :: rest, url =>
    (match stripMount fp url with
     | some sfx => onFallback (pp ++ sfx)
     | none => scanPass H onFallback rest url)

/-- A request against the layers of a trace: the spec's single re-dispatch is
one pass whose fallback rewrite feeds a second pass in which any further
fallback dead-ends. -/
def dispatch (H : String → String → Bool) (tr : List Ev) (url : String) : Option String :=
  scanPass H (scanPass H (fun _ => none) (layersOf tr)) (layersOf tr) url

/-- Does the event register a route? -/
def isRouteReg : Ev → Bool
  | Ev.routeReg _ _ _ => true
  | _ => false

/-- Well-formed base path as produced by `routeParse`: a leading `/` followed
by a slash-free remainder. -/
def bpWFb (bp : String) : Bool :=
  match bp.data with
  | c :: rest => c == '/' && rest.all (fun x => !(x == '/'))
  | [] => false

/-- Well-formed version key as produced by `routeParse`: `default`, or a
nonempty string of digits and dots. -/
def verWFb (v : String) : Bool :=
  v == "default" || (!v.data.isEmpty && v.data.all (fun c => c.isDigit || c == '.'))

/-- A route table is well formed when its base paths are distinct, every base
path and version key has the shape `routeParse` produces, and each inner map
has distinct keys. -/
def tableWF (m : RoutesMap) : Prop :=
  (m.map (fun e => e.1)).Nodup ∧
  ∀ e ∈ m, bpWFb e.1 = true ∧ (e.2.map (fun q => q.1)).Nodup ∧
    ∀ q ∈ e.2, verWFb q.1 = true

/-- An import oracle under which every load succeeds. -/
def cfgOk : Config := ⟨fun _ => none⟩

/-- The version table of testable property three: base path `/a`, versions
`2` and `10`, no default. -/
def tblC3 : RoutesMap := [("/a", [("2", "f2"), ("10", "f10")])]

/-- The version table of testable property four: base path `/b`, a default
(token-free) registration and a version `3`. -/
def tblC4 : RoutesMap := [("/b", [("default", "fb"), ("3", "f3")])]

/-- Version table with a failing lower version (`bad`) and a healthy sibling
(`good`). -/
def tblC6 : RoutesMap := [("/a", [("1", "bad"), ("2", "good")])]

/-- Oracle that makes `bad` throw an aggregate of two causes. -/
def cfgC6 : Config :=
  ⟨fun p => if p == "bad" then some (LoadErr.aggregate ["cause one", "cause two"]) else none⟩

/-- Oracle that makes `f2` throw an ordinary error. -/
def cfgC10 : Config :=
  ⟨fun p => if p == "f2" then some (LoadErr.simple "boom") else none⟩

/-- A project with one local middleware and one local route file. -/
def fsC1 : FSTree := FSTree.dir
  [("node_modules", FSTree.dir []),
   ("src", FSTree.dir
     [("modules", FSTree.dir
       [("middlewares", FSTree.dir [("m.middleware.js", FSTree.file)]),
        ("routes", FSTree.dir [("r.router.js", FSTree.file)])])])]

/-- A marketplace module named `edrm-routes` with a `dist` content root, whose
root route file is locally overridden. -/
def fsC2 : FSTree := FSTree.dir
  [("node_modules", FSTree.dir
     [("edrm-routes", FSTree.dir
       [("dist", FSTree.dir [("a.router.js", FSTree.file)])])]),
   ("modules", FSTree.dir
     [("edrm-routes", FSTree.dir [("a.router.js", FSTree.file)])])]

/-- `fsC2` without the local override tree. -/
def fsC2base : FSTree := FSTree.dir
  [("node_modules", FSTree.dir
     [("edrm-routes", FSTree.dir
       [("dist", FSTree.dir [("a.router.js", FSTree.file)])])])]

/-- A project whose only route-like file sits directly under a folder named
`myroutes` (not `routes`). -/
def fsC8 : FSTree := FSTree.dir
  [("node_modules", FSTree.dir []),
   ("src", FSTree.dir
     [("modules", FSTree.dir
       [("myroutes", FSTree.dir [("foo.router.js", FSTree.file)])])])]

/-- A `routes` folder holding a router file and a `listeners` subfolder. -/
def fsC9 : FSTree := FSTree.dir
  [("routes", FSTree.dir
     [("a.router.js", FSTree.file),
      ("listeners", FSTree.dir [("b.listener.js", FSTree.file)])])]

/-- Events a discovery walk may produce (no route import, no mounting). -/
def isWalkEv : Ev → Bool
  | Ev.importRoute _ => false
  | Ev.mountRoute _ _ => false
  | Ev.mountFallback _ _ => false
  | _ => true

/-- Events the mounting loop may produce (no walk-phase loading). -/
def isMountEv : Ev → Bool
  | Ev.importRoute _ => true
  | Ev.mountRoute _ _ => true
  | Ev.mountFallback _ _ => true
  | Ev.logErr _ => true
  | _ => false

/-- The four stages of one `readModulesFolder` visit with their traces, in the
order the source runs them (lines 245-281): the middleware bucket (empty when
`skipMiddlewares` is set), the other-files bucket, the recursion into
subdirectories, and the router bucket, each threading the route table left to
right exactly as `readModulesFolder` does. -/
def visitSegs (cfg : Config) (fs : FSTree) (n : Nat) (folder ovr : List String)
    (skipMw : Bool) (routes : RoutesMap) (files : List String) :
    List Ev × List Ev × List Ev × List Ev :=
  let b := bucketize fs folder ovr files
  let s1 := if skipMw then (([] : List Ev), routes) else pfFold cfg fs n b.mws routes
  let s2 := pfFold cfg fs n b.others s1.2
  let s3 := dirFold cfg fs n folder ovr skipMw b.dirNames s2.2
  let s4 := pfFold cfg fs n b.routers s3.2
  (s1.1, s2.1, s3.1, s4.1)

/-- Replay a sequence of discovered `(basePath, version, file)` registrations
through `registerRoute`, in discovery order. -/
def applyOps : RoutesMap → List (String × String × String) → RoutesMap
  | m, [] => m
  | m, o :: rest => applyOps (registerRoute m o.1 o.2.1 o.2.2) rest

/-- The file of the last registration for a `(basePath, version)` pair in a
sequence of registrations, if any. -/
def lastWrite (ops : List (String × String × String)) (bp v : String) : Option String :=
  match ops.reverse.find? (fun o => o.1 == bp && o.2.1 == v) with
  | some o => some o.2.2
  | none => none

/-- A nonempty all-digit character run. -/
def digitRun (l : List Char) : Prop := l ≠ [] ∧ ∀ c ∈ l, c.isDigit = true

/-- The shapes a captured version token can take: a digit run, or three digit
runs separated by dots. -/
def tokenShape (t : List Char) : Prop :=
  digitRun t ∨
  ∃ a b c, digitRun a ∧ digitRun b ∧ digitRun c ∧ t = a ++ '.' :: (b ++ '.' :: c)

/-- Does `pat` occur as a contiguous substring? -/
def occursIn (pat : List Char) : List Char → Bool
  | [] => strHasPre pat []
  | c :: cs => strHasPre pat (c :: cs) || occursIn pat cs

example : extractVersion "a.2" = some "2" := by decide
example : extractVersion "a.10" = some "10" := by decide
example : extractVersion "a.1.2.3" = some "1.2.3" := by decide
example : extractVersion "a.1.2" = some "1" := by decide
example : extractVersion "abc" = none := by decide
example : routeParse "a.2" = ("/a", "2") := by decide
example : routeParse "users.v2" = ("/users.v2", "2") := by decide
example : routeParse "abc" = ("/abc", "default") := by decide

/-! ### Lemmas about the string primitives -/

lemma strHasPre_iff (p s : List Char) : strHasPre p s = true ↔ p <+: s := by
  induction p generalizing s with
  | nil => simp [strHasPre]
  | cons a as ih =>
    cases s with
    | nil => simp [strHasPre]
    | cons b bs =>
      simp only [strHasPre, Bool.and_eq_true, beq_iff_eq, ih, List.cons_prefix_cons]

lemma not_both_endsWith (s a b : String)
    (hlen : a.data.length ≤ b.data.length)
    (hnp : strHasPre a.data.reverse b.data.reverse = false) :
    ¬(jsEndsWith s a = true ∧ jsEndsWith s b = true) := by
  rintro ⟨ha, hb⟩
  rw [jsEndsWith, strHasPre_iff] at ha hb
  have hab : a.data.reverse <+: b.data.reverse :=
    List.prefix_of_prefix_length_le ha hb (by simpa using hlen)
  rw [← strHasPre_iff, hnp] at hab
  exact Bool.noConfusion hab

/-! ### Shape of the traces of the two phases -/

lemma mkImportEv_walk (e : Entry) (p : String) : isWalkEv (mkImportEv e p) = true := by
  rw [mkImportEv]
  split <;> rfl

lemma walkShape (cfg : Config) (fs : FSTree) : ∀ fuel : Nat,
    (∀ e routes, ∀ ev ∈ (processFile cfg fs fuel e routes).1, isWalkEv ev = true) ∧
    (∀ folder ovr skipMw routes,
      ∀ ev ∈ (readModulesFolder cfg fs fuel folder ovr skipMw routes).1, isWalkEv ev = true) ∧
    (∀ es routes, ∀ ev ∈ (pfFold cfg fs fuel es routes).1, isWalkEv ev = true) ∧
    (∀ folder ovr skipMw ds routes,
      ∀ ev ∈ (dirFold cfg fs fuel folder ovr skipMw ds routes).1, isWalkEv ev = true) := by
  intro fuel
  induction fuel with
  | zero =>
    refine ⟨?_, ?_, ?_, ?_⟩ <;> intros <;> simp_all [processFile, readModulesFolder, pfFold, dirFold]
  | succ n ih =>
    obtain ⟨ihPf, ihRmf, ihFold, ihDir⟩ := ih
    refine ⟨?_, ?_, ?_, ?_⟩
    · intro e routes ev hev
      simp only [processFile] at hev
      cases h1 : isDir fs e.actual with
      | true =>
        simp only [h1, if_true] at hev
        exact ihRmf _ _ _ _ ev hev
      | false =>
        simp only [h1, Bool.false_eq_true, if_false] at hev
        cases h2 : pEndsWith e.folder "public" with
        | true =>
          simp only [h2, if_true] at hev
          simp only [List.mem_singleton] at hev
          subst hev; rfl
        | false =>
          simp only [h2, Bool.false_eq_true, if_false] at hev
          cases h3 : importCond e with
          | true =>
            simp only [h3, if_true] at hev
            cases h4 : cfg.loadResult (joinPath e.actual) <;>
              simp only [h4] at hev <;> simp only [List.mem_singleton, List.mem_cons,
                List.mem_singleton, List.not_mem_nil, or_false] at hev
            · subst hev; exact mkImportEv_walk e _
            · rcases hev with hev | hev
              · subst hev; exact mkImportEv_walk e _
              · subst hev; rfl
          | false =>
            simp only [h3, Bool.false_eq_true, if_false] at hev
            cases h5 : (jsEndsWith e.name ".router.js" && pEndsWith e.folder "routes") with
            | true =>
              simp only [h5, if_true, List.mem_singleton] at hev
              subst hev; rfl
            | false =>
              simp only [h5, Bool.false_eq_true, if_false, List.not_mem_nil] at hev
    · intro folder ovr skipMw routes ev hev
      simp only [readModulesFolder] at hev
      cases hr : readdir fs folder with
      | none =>
        rw [hr] at hev
        simp only [List.mem_singleton] at hev
        subst hev; rfl
      | some files =>
        rw [hr] at hev
        simp only [List.append_assoc, List.mem_append] at hev
        rcases hev with h | h | h | h
        · cases skipMw with
          | true => simp at h
          | false => exact ihFold _ _ ev h
        · exact ihFold _ _ ev h
        · exact ihDir _ _ _ _ _ ev h
        · exact ihFold _ _ ev h
    · intro es routes ev hev
      cases es with
      | nil => simp [pfFold] at hev
      | cons e rest =>
        simp only [pfFold, List.mem_append] at hev
        rcases hev with h | h
        · exact ihPf _ _ ev h
        · exact ihFold _ _ ev h
    · intro folder ovr skipMw ds routes ev hev
      cases ds with
      | nil => simp [dirFold] at hev
      | cons d rest =>
        simp only [dirFold, List.mem_append] at hev
        rcases hev with h | h
        · exact ihRmf _ _ _ _ ev h
        · exact ihDir _ _ _ _ _ ev h

lemma lmoShape (cfg : Config) (fs : FSTree) : ∀ fuel : Nat,
    (∀ folder ovr, ∀ ev ∈ loadMiddlewaresOnly cfg fs fuel folder ovr, isWalkEv ev = true) ∧
    (∀ folder ovr files, ∀ ev ∈ lmoFold cfg fs fuel folder ovr files, isWalkEv ev = true) := by
  intro fuel
  induction fuel with
  | zero =>
    refine ⟨?_, ?_⟩ <;> intros <;> simp_all [loadMiddlewaresOnly, lmoFold]
  | succ n ih =>
    obtain ⟨ihL, ihF⟩ := ih
    refine ⟨?_, ?_⟩
    · intro folder ovr ev hev
      simp only [loadMiddlewaresOnly] at hev
      cases hr : readdir fs folder with
      | none => rw [hr] at hev; simp at hev
      | some files =>
        rw [hr] at hev
        exact ihF _ _ _ ev hev
    · intro folder ovr files ev hev
      cases files with
      | nil => simp [lmoFold] at hev
      | cons name rest =>
        simp only [lmoFold, List.mem_append] at hev
        rcases hev with h | h
        · cases h1 : isDir fs (folder ++ [name]) with
          | true =>
            simp only [h1, if_true] at h
            exact ihL _ _ ev h
          | false =>
            simp only [h1, Bool.false_eq_true, if_false] at h
            cases h2 : (jsEndsWith name ".middleware.js" && pEndsWith folder "middlewares") with
            | true =>
              simp only [h2, if_true] at h
              cases h4 : cfg.loadResult (joinPath (lmoActual fs folder ovr name)) <;>
                simp only [h4, List.mem_singleton, List.mem_cons, List.not_mem_nil, or_false] at h
              · subst h; rfl
              · rcases h with h | h <;> (subst h; rfl)
            | false =>
              simp only [h2, Bool.false_eq_true, if_false, List.not_mem_nil] at h
        · exact ihF _ _ _ ev h

lemma phase1Shape (cfg : Config) (fs : FSTree) (fuel : Nat) : ∀ mods : List ModEntry,
    ∀ ev ∈ phase1 cfg fs fuel mods, isWalkEv ev = true := by
  intro mods
  induction mods with
  | nil => simp [phase1]
  | cons m rest ih =>
    intro ev hev
    simp only [phase1, List.mem_append] at hev
    rcases hev with h | h
    · exact (lmoShape cfg fs fuel).1 _ _ ev h
    · exact ih ev h

lemma phase2Shape (cfg : Config) (fs : FSTree) (fuel : Nat) : ∀ (mods : List ModEntry) routes,
    ∀ ev ∈ (phase2 cfg fs fuel mods routes).1, isWalkEv ev = true := by
  intro mods
  induction mods with
  | nil => simp [phase2]
  | cons m rest ih =>
    intro routes ev hev
    simp only [phase2, List.mem_append] at hev
    rcases hev with h | h
    · exact (walkShape cfg fs fuel).2.1 _ _ _ _ ev h
    · exact ih _ ev h

lemma serverWalkShape (cfg : Config) (fs : FSTree) (fuel : Nat) :
    ∀ ev ∈ (serverWalk cfg fs fuel).1, isWalkEv ev = true := by
  intro ev hev
  simp only [serverWalk, List.mem_append] at hev
  rcases hev with h | h
  · simp only [loadMarketplaceModules] at h
    cases hr : readdir fs ["node_modules"] with
    | none =>
      rw [hr] at h
      simp only [List.mem_singleton] at h
      subst h; rfl
    | some names =>
      rw [hr] at h
      simp only [List.mem_append] at h
      rcases h with h | h
      · exact phase1Shape cfg fs fuel _ ev h
      · exact phase2Shape cfg fs fuel _ _ ev h
  · cases hd : isDir fs ["dist", "modules"] with
    | true =>
      rw [hd] at h
      simp only [if_true] at h
      exact (walkShape cfg fs fuel).2.1 _ _ _ _ ev h
    | false =>
      rw [hd] at h
      simp only [Bool.false_eq_true, if_false] at h
      exact (walkShape cfg fs fuel).2.1 _ _ _ _ ev h

lemma loadRoutesEvShape (cfg : Config) (bp file : String) (ver : Option String) :
    ∀ ev ∈ loadRoutesEv cfg bp file ver, isMountEv ev = true := by
  intro ev hev
  rw [loadRoutesEv] at hev
  rcases h : cfg.loadResult file with _ | e
  · rw [h] at hev
    simp only [List.mem_cons, List.not_mem_nil, or_false] at hev
    rcases hev with hev | hev <;> (subst hev; rfl)
  · rw [h] at hev
    cases e with
    | simple m =>
      simp only [List.mem_cons, List.not_mem_nil, or_false] at hev
      rcases hev with hev | hev | hev <;> (subst hev; rfl)
    | aggregate ms =>
      simp only [List.mem_cons] at hev
      rcases hev with hev | hev | hev
      · subst hev; rfl
      · subst hev; rfl
      · simp only [List.mem_map] at hev
        obtain ⟨m, _, hm⟩ := hev
        subst hm; rfl

lemma mountChainShape (cfg : Config) (bp : String) (vm : VMap) :
    ∀ (l : List String) prevOpt, ∀ ev ∈ mountChain cfg bp vm l prevOpt, isMountEv ev = true := by
  intro l
  induction l with
  | nil => simp [mountChain]
  | cons v rest ih =>
    intro prevOpt ev hev
    simp only [mountChain, List.mem_append] at hev
    rcases hev with (h | h) | h
    · exact loadRoutesEvShape cfg bp _ _ ev h
    · cases prevOpt with
      | none => simp at h
      | some pv =>
        simp only [List.mem_singleton] at h
        subst h; rfl
    · exact ih _ ev h

lemma mountAllShape (cfg : Config) : ∀ m : RoutesMap,
    ∀ ev ∈ mountAll cfg m, isMountEv ev = true := by
  intro m
  induction m with
  | nil => simp [mountAll]
  | cons e rest ih =>
    intro ev hev
    simp only [mountAll, List.mem_append] at hev
    rcases hev with h | h
    · exact mountChainShape cfg e.1 e.2 _ _ ev h
    · exact ih ev h

/-- **C1.** In every startup run, every middleware import (phase 1 of the
marketplace walk, phase 2 imports, and the local tree alike) occurs strictly
before every route-file import: the walks only register route files, and
route imports happen solely in the final mounting loop after all walks. -/
theorem middleware_loads_precede_route_imports
    (cfg : Config) (fs : FSTree) (fuel i j : Nat) (p q : String)
    (hi : (loadServer cfg fs fuel)[i]? = some (Ev.importMw p))
    (hj : (loadServer cfg fs fuel)[j]? = some (Ev.importRoute q)) : i < j := by
  have hls : loadServer cfg fs fuel =
      (serverWalk cfg fs fuel).1 ++ mountAll cfg (serverWalk cfg fs fuel).2 := rfl
  rw [hls] at hi hj
  have hiA : i < (serverWalk cfg fs fuel).1.length := by
    by_contra hni
    push_neg at hni
    rw [List.getElem?_append_right hni] at hi
    have hmem := List.getElem?_mem hi
    have := mountAllShape cfg _ _ hmem
    simp [isMountEv] at this
  have hjB : (serverWalk cfg fs fuel).1.length ≤ j := by
    by_contra hnj
    push_neg at hnj
    rw [List.getElem?_append, if_pos hnj] at hj
    have hmem := List.getElem?_mem hj
    have := serverWalkShape cfg fs fuel _ hmem
    simp [isWalkEv] at this
  omega

/-- Witness for C1 on a concrete project: the local middleware import sits at
index 0 of the trace, the route import at index 2. -/
theorem middleware_loads_precede_route_imports_wit :
    (loadServer cfgOk fsC1 20)[0]? = some (Ev.importMw "src/modules/middlewares/m.middleware.js") ∧
    (loadServer cfgOk fsC1 20)[2]? = some (Ev.importRoute "src/modules/routes/r.router.js") ∧
    (0 : Nat) < 2 :=
  ⟨by decide, by decide,
   middleware_loads_precede_route_imports cfgOk fsC1 20 0 2
     "src/modules/middlewares/m.middleware.js" "src/modules/routes/r.router.js"
     (by decide) (by decide)⟩

/-! ### C2: override resolution -/

lemma evPath_mkImportEv (e : Entry) (p : String) : evPath (mkImportEv e p) = some p := by
  rw [mkImportEv]
  split <;> rfl

/-- **C2 (counterexample).** With module `edrm-routes` (content root
`node_modules/edrm-routes/dist`) and a local override of its root file
`a.router.js`, the overridden file is registered as a route — though its
folder under the content root (`.../dist`) is not a `routes` folder, and
without the override the very same file is not registered at all. The
override therefore does not preserve the classification. -/
theorem override_changes_classification :
    Ev.routeReg "/a" "default" "modules/edrm-routes/a.router.js" ∈ loadServer cfgOk fsC2 20 ∧
    pEndsWith ["node_modules", "edrm-routes", "dist"] "routes" = false ∧
    ((loadServer cfgOk fsC2base 20).all (fun ev => !isRouteReg ev)) = true :=
  ⟨by decide, by decide, by decide⟩

/-- **C2 (amended).** Whenever a walked file has a node at the same relative
path under the paired local override root, the entry is resolved to the
override: the folder and physical path recorded are the override's (in both
the phase-1 middleware walk and the general walk), and every load / register
event `processFile` emits for the entry carries the override path — the
classification being computed from the override folder's path. -/
theorem override_path_always_wins
    (fs : FSTree) (folder ovr : List String) (name : String)
    (hovr : ovr.isEmpty = false)
    (hex : pathExists fs (ovr ++ [name]) = true) :
    classifyEntry fs folder ovr name = ⟨ovr, name, ovr ++ [name]⟩ ∧
    lmoActual fs folder ovr name = ovr ++ [name] ∧
    (∀ (cfg : Config) (fuel : Nat) (routes : RoutesMap),
      isDir fs (ovr ++ [name]) = false →
      ∀ ev ∈ (processFile cfg fs fuel (classifyEntry fs folder ovr name) routes).1,
        ∀ pth, evPath ev = some pth → pth = joinPath (ovr ++ [name])) := by
  have hce : classifyEntry fs folder ovr name = ⟨ovr, name, ovr ++ [name]⟩ := by
    rw [classifyEntry]
    simp [hovr, hex]
  refine ⟨hce, by rw [lmoActual]; simp [hovr, hex], ?_⟩
  intro cfg fuel routes hnd ev hev pth hp
  rw [hce] at hev
  cases fuel with
  | zero => simp [processFile] at hev
  | succ n =>
    simp only [processFile] at hev
    rw [hnd] at hev
    simp only [Bool.false_eq_true, if_false] at hev
    cases h2 : pEndsWith (Entry.mk ovr name (ovr ++ [name])).folder "public" with
    | true =>
      rw [h2] at hev
      simp only [if_true, List.mem_singleton] at hev
      subst hev
      simp [evPath] at hp
    | false =>
      rw [h2] at hev
      simp only [Bool.false_eq_true, if_false] at hev
      cases h3 : importCond (Entry.mk ovr name (ovr ++ [name])) with
      | true =>
        rw [h3] at hev
        simp only [if_true] at hev
        cases h4 : cfg.loadResult (joinPath (Entry.mk ovr name (ovr ++ [name])).actual) <;>
          rw [h4] at hev <;>
            simp only [List.mem_singleton, List.mem_cons, List.not_mem_nil, or_false] at hev
        · subst hev
          rw [evPath_mkImportEv] at hp
          exact (Option.some.injEq _ _ ▸ hp).symm ▸ rfl
        · rcases hev with hev | hev
          · subst hev
            rw [evPath_mkImportEv] at hp
            exact (Option.some.injEq _ _ ▸ hp).symm ▸ rfl
          · subst hev
            simp [evPath] at hp
      | false =>
        rw [h3] at hev
        simp only [Bool.false_eq_true, if_false] at hev
        cases h5 : (jsEndsWith (Entry.mk ovr name (ovr ++ [name])).name ".router.js" &&
            pEndsWith (Entry.mk ovr name (ovr ++ [name])).folder "routes") with
        | true =>
          rw [h5] at hev
          simp only [if_true, List.mem_singleton] at hev
          subst hev
          simp only [evPath, Option.some.injEq] at hp
          exact hp.symm
        | false =>
          rw [h5] at hev
          simp only [Bool.false_eq_true, if_false, List.not_mem_nil] at hev

/-- Witness for the amended C2 at the concrete override of `fsC2`. -/
theorem override_path_always_wins_wit :
    classifyEntry fsC2 ["node_modules", "edrm-routes", "dist"] ["modules", "edrm-routes"]
        "a.router.js" =
      ⟨["modules", "edrm-routes"], "a.router.js", ["modules", "edrm-routes", "a.router.js"]⟩ :=
  (override_path_always_wins fsC2 ["node_modules", "edrm-routes", "dist"]
    ["modules", "edrm-routes"] "a.router.js" (by decide) (by decide)).1

/-! ### C5: version-token extraction and base-path derivation -/

lemma strMkData (s : String) : String.mk s.data = s := by
  cases s with
  | mk d => rfl

lemma strHasPre_nil (pat : List Char) (h : pat ≠ []) : strHasPre pat [] = false := by
  cases pat with
  | nil => exact absurd rfl h
  | cons c cs => rfl

lemma takeDigits_all : ∀ l : List Char, ∀ c ∈ (takeDigits l).1, c.isDigit = true := by
  intro l
  induction l with
  | nil => simp [takeDigits]
  | cons c cs ih =>
    cases hcd : c.isDigit with
    | true =>
      simp only [takeDigits, hcd, if_true]
      intro d hd
      rcases List.mem_cons.mp hd with h | h
      · subst h; exact hcd
      · exact ih d h
    | false =>
      simp [takeDigits, hcd]

lemma takeDigits_cons_digit (c : Char) (cs : List Char) (hc : c.isDigit = true) :
    takeDigits (c :: cs) = (c :: (takeDigits cs).1, (takeDigits cs).2) := by
  simp [takeDigits, hc]

lemma tripleExtend_shape (r1 rest : List Char) (h1 : digitRun r1) :
    tokenShape (tripleExtend r1 rest) := by
  rw [tripleExtend]
  by_cases hc : rest.head? = some '.'
  · rw [if_pos hc]
    by_cases h2 : (takeDigits rest.tail).1.isEmpty
    · rw [if_pos h2]
      exact Or.inl h1
    · rw [if_neg h2]
      by_cases hc2 : (takeDigits rest.tail).2.head? = some '.'
      · rw [if_pos hc2]
        by_cases h3 : (takeDigits (takeDigits rest.tail).2.tail).1.isEmpty
        · rw [if_pos h3]
          exact Or.inl h1
        · rw [if_neg h3]
          refine Or.inr ⟨r1, (takeDigits rest.tail).1,
            (takeDigits (takeDigits rest.tail).2.tail).1, h1,
            ⟨?_, takeDigits_all _⟩, ⟨?_, takeDigits_all _⟩, rfl⟩
          · simpa [List.isEmpty_iff] using h2
          · simpa [List.isEmpty_iff] using h3
      · rw [if_neg hc2]
        exact Or.inl h1
  · rw [if_neg hc]
    exact Or.inl h1

lemma findTok_shape : ∀ l t, findTok l = some t → tokenShape t := by
  intro l
  induction l with
  | nil => intro t h; exact absurd h (by simp [findTok])
  | cons c cs ih =>
    intro t h
    cases hcd : c.isDigit with
    | true =>
      rw [findTok, if_pos hcd] at h
      have hpr := takeDigits_cons_digit c cs hcd
      rw [hpr] at h
      have ht : t = tripleExtend (c :: (takeDigits cs).1) (takeDigits cs).2 :=
        (Option.some.injEq _ _ ▸ h).symm
      rw [ht]
      refine tripleExtend_shape _ _ ⟨by simp, ?_⟩
      intro d hd
      rcases List.mem_cons.mp hd with hh | hh
      · subst hh; exact hcd
      · exact takeDigits_all cs d hh
    | false =>
      rw [findTok, if_neg (by simp [hcd])] at h
      exact ih t h

lemma findTok_none : ∀ l : List Char, findTok l = none ↔ ∀ c ∈ l, c.isDigit = false := by
  intro l
  induction l with
  | nil => simp [findTok]
  | cons c cs ih =>
    cases hcd : c.isDigit with
    | true =>
      rw [findTok, if_pos hcd]
      simp only [reduceCtorEq, false_iff]
      intro hall
      have := hall c (List.mem_cons_self c cs)
      rw [hcd] at this
      exact Bool.noConfusion this
    | false =>
      rw [findTok, if_neg (by simp [hcd])]
      rw [ih]
      constructor
      · intro hall d hd
        rcases List.mem_cons.mp hd with h | h
        · subst h; exact hcd
        · exact hall d h
      · intro hall d hd
        exact hall d (List.mem_cons_of_mem c hd)

lemma replFirst_not_occurs (pat : List Char) :
    ∀ s, occursIn pat s = false → replFirstAux pat s = s := by
  intro s
  induction s with
  | nil => intro _; rfl
  | cons c cs ih =>
    intro h
    rw [occursIn] at h
    rcases Bool.or_eq_false_iff.mp h with ⟨h1, h2⟩
    rw [replFirstAux, if_neg (by simp [h1])]
    rw [ih h2]

lemma replFirst_occurs (pat : List Char) (hne : pat ≠ []) :
    ∀ s, occursIn pat s = true →
      ∃ pre post, s = pre ++ pat ++ post ∧ replFirstAux pat s = pre ++ post := by
  intro s
  induction s with
  | nil =>
    intro h
    rw [occursIn, strHasPre_nil pat hne] at h
    exact Bool.noConfusion h
  | cons c cs ih =>
    intro h
    by_cases hp : strHasPre pat (c :: cs) = true
    · have hpre : pat <+: c :: cs := (strHasPre_iff _ _).mp hp
      obtain ⟨post, hpost⟩ := hpre
      refine ⟨[], post, by simp [hpost.symm], ?_⟩
      rw [replFirstAux, if_pos hp, ← hpost]
      simp [List.drop_left]
    · rw [occursIn, Bool.or_eq_true] at h
      rcases h with h | h
      · exact absurd h hp
      · obtain ⟨pre, post, hs, hr⟩ := ih h
        refine ⟨c :: pre, post, by simp [hs], ?_⟩
        rw [replFirstAux, if_neg (by simp [Bool.eq_false_iff.mpr hp])]
        rw [hr]
        simp

/-- **C5 (counterexample).** For the stem `users.v2` the extracted token is
`2`, yet the derived base path is `/users.v2`: the token and its separator
are not removed, because the code removes the first occurrence of
`'.' + token`, and here the token is preceded by `v`, not by a dot. -/
theorem base_path_keeps_token :
    extractVersion "users.v2" = some "2" ∧
    routeParse "users.v2" = ("/users.v2", "2") ∧
    ("/users.v2" : String) ≠ "/users" := by
  refine ⟨by decide, by decide, by decide⟩

/-- **C5 (amended).** For every route-file stem: extraction fails exactly when
the stem has no digit, and then the version key is `default`; an extracted
token is a digit run or a three-part dotted digit group (the leftmost such
match, an optional `v` prefix being allowed but not captured); the version key
is the token itself; and the base path is `'/'` plus the stem with the first
occurrence of `'.' + token` removed — the stem unchanged when there is no such
occurrence (for a token-free stem the removed pattern is the literal
`.null`). -/
theorem version_extraction_and_base_path (s : String) :
    (extractVersion s = none ↔ ∀ c ∈ s.data, c.isDigit = false) ∧
    (extractVersion s = none → (routeParse s).2 = "default") ∧
    (∀ t, extractVersion s = some t → tokenShape t.data) ∧
    (∀ t, extractVersion s = some t → (routeParse s).2 = t) ∧
    (∀ t, extractVersion s = some t →
      (occursIn ("." ++ t).data s.data = false → (routeParse s).1 = "/" ++ s) ∧
      (occursIn ("." ++ t).data s.data = true →
        ∃ pre post, s.data = pre ++ ("." ++ t).data ++ post ∧
          (routeParse s).1.data = '/' :: (pre ++ post))) := by
  refine ⟨?_, ?_, ?_, ?_, ?_⟩
  · rw [extractVersion]
    cases hf : findTok s.data with
    | none => simpa using (findTok_none s.data).mp hf
    | some cs =>
      simp only [reduceCtorEq, false_iff]
      intro hall
      rw [(findTok_none s.data).mpr hall] at hf
      exact Option.noConfusion hf
  · intro h
    simp [routeParse, h]
  · intro t ht
    rw [extractVersion] at ht
    cases hf : findTok s.data with
    | none => rw [hf] at ht; exact Option.noConfusion ht
    | some cs =>
      rw [hf] at ht
      have : t = String.mk cs := (Option.some.injEq _ _ ▸ ht).symm
      subst this
      exact findTok_shape s.data cs hf
  · intro t ht
    simp [routeParse, ht]
  · intro t ht
    constructor
    · intro hocc
      have : jsReplaceFirst s ("." ++ t) = s := by
        rw [jsReplaceFirst, replFirst_not_occurs _ _ hocc, strMkData]
      simp [routeParse, ht, this]
    · intro hocc
      have hne : ("." ++ t).data ≠ [] := by
        rw [String.data_append]
        simp
      obtain ⟨pre, post, hs, hr⟩ := replFirst_occurs _ hne s.data hocc
      refine ⟨pre, post, hs, ?_⟩
      have h1 : (routeParse s).1 = "/" ++ jsReplaceFirst s ("." ++ t) := by
        simp [routeParse, ht]
      rw [h1, String.data_append, jsReplaceFirst, hr]
      rfl

/-- Witness for the amended C5 at the stem `users.v2`. -/
theorem version_extraction_wit :
    tokenShape ("2" : String).data ∧ (routeParse "users.v2").1 = "/" ++ "users.v2" :=
  ⟨(version_extraction_and_base_path "users.v2").2.2.1 "2" (by decide),
   ((version_extraction_and_base_path "users.v2").2.2.2.2 "2" (by decide)).1 (by decide)⟩

/-! ### C7: the route-table registration invariant -/

lemma getKV_setKV_self {α : Type} (m : List (String × α)) (k : String) (v : α) :
    getKV (setKV m k v) k = some v := by
  induction m with
  | nil => simp [setKV, getKV, List.find?]
  | cons e rest ih =>
    cases he : e.1 == k with
    | true =>
      simp only [setKV, he, if_true]
      simp [getKV, List.find?]
    | false =>
      simp only [setKV, he, Bool.false_eq_true, if_false]
      simp only [getKV, List.find?, he] at ih ⊢
      exact ih

lemma getKV_setKV_ne {α : Type} (m : List (String × α)) (k k' : String) (v : α)
    (h : k' ≠ k) : getKV (setKV m k v) k' = getKV m k' := by
  have hkk : (k == k') = false := by
    simp [BEq.comm]
    exact fun hh => h hh.symm
  induction m with
  | nil => simp [setKV, getKV, List.find?, hkk]
  | cons e rest ih =>
    cases he : e.1 == k with
    | true =>
      simp only [setKV, he, if_true]
      have he1 : e.1 = k := by simpa using he
      simp [getKV, List.find?, hkk, he1]
    | false =>
      simp only [setKV, he, Bool.false_eq_true, if_false]
      cases he2 : e.1 == k' with
      | true => simp [getKV, List.find?, he2]
      | false =>
        simp only [getKV, List.find?, he2, cond_false] at ih ⊢
        exact ih

lemma keys_setKV {α : Type} (m : List (String × α)) (k : String) (v : α) :
    (setKV m k v).map (fun e => e.1) =
      if m.any (fun e => e.1 == k) then m.map (fun e => e.1)
      else m.map (fun e => e.1) ++ [k] := by
  induction m with
  | nil => simp [setKV]
  | cons e rest ih =>
    cases he : e.1 == k with
    | true =>
      have he1 : e.1 = k := by simpa using he
      simp [setKV, he, List.any_cons, he1]
    | false =>
      simp only [setKV, he, Bool.false_eq_true, if_false, List.map_cons, ih, List.any_cons,
        Bool.false_or]
      split <;> simp

lemma nodup_keys_setKV {α : Type} (m : List (String × α)) (k : String) (v : α)
    (h : (m.map (fun e => e.1)).Nodup) :
    ((setKV m k v).map (fun e => e.1)).Nodup := by
  rw [keys_setKV]
  split
  · exact h
  · rename_i hany
    have hk : k ∉ m.map (fun e => e.1) := by
      intro hmem
      apply hany
      obtain ⟨e, hem, hk⟩ := List.mem_map.mp hmem
      exact List.any_eq_true.mpr ⟨e, hem, by simp [hk]⟩
    simp only [List.nodup_append, List.nodup_singleton, true_and]
    exact ⟨h, by simpa [List.disjoint_singleton] using hk⟩

lemma mem_setKV {α : Type} (m : List (String × α)) (k : String) (v : α) :
    ∀ e ∈ setKV m k v, e = (k, v) ∨ e ∈ m := by
  induction m with
  | nil => simp [setKV]
  | cons q rest ih =>
    intro e he
    cases hq : q.1 == k with
    | true =>
      simp only [setKV, hq, if_true] at he
      rcases List.mem_cons.mp he with h | h
      · exact Or.inl h
      · exact Or.inr (List.mem_cons_of_mem q h)
    | false =>
      simp only [setKV, hq, Bool.false_eq_true, if_false] at he
      rcases List.mem_cons.mp he with h | h
      · exact Or.inr (by simp [h])
      · rcases ih e h with h2 | h2
        · exact Or.inl h2
        · exact Or.inr (List.mem_cons_of_mem q h2)

lemma lookupRoute_register_self (m : RoutesMap) (bp v f : String) :
    lookupRoute (registerRoute m bp v f) bp v = some f := by
  rw [registerRoute]
  cases hg : getKV m bp with
  | some vm =>
    rw [lookupRoute, getKV_setKV_self]
    exact getKV_setKV_self vm v f
  | none =>
    rw [lookupRoute, getKV_setKV_self]
    exact getKV_setKV_self [] v f

lemma lookupRoute_register_ne (m : RoutesMap) (bp v f bp' v' : String)
    (h : ¬(bp' = bp ∧ v' = v)) :
    lookupRoute (registerRoute m bp v f) bp' v' = lookupRoute m bp' v' := by
  by_cases hbp : bp' = bp
  · subst hbp
    have hv : v' ≠ v := fun hv => h ⟨rfl, hv⟩
    rw [registerRoute]
    cases hg : getKV m bp' with
    | some vm =>
      rw [lookupRoute, getKV_setKV_self]
      show getKV (setKV vm v f) v' = lookupRoute m bp' v'
      rw [getKV_setKV_ne vm v v' f hv, lookupRoute, hg]
    | none =>
      rw [lookupRoute, getKV_setKV_self]
      show getKV (setKV [] v f) v' = lookupRoute m bp' v'
      rw [getKV_setKV_ne [] v v' f hv, lookupRoute, hg]
      simp [getKV, List.find?]
  · rw [registerRoute]
    cases hg : getKV m bp with
    | some vm =>
      rw [lookupRoute, getKV_setKV_ne m bp bp' _ hbp, lookupRoute]
    | none =>
      rw [lookupRoute, getKV_setKV_ne m bp bp' _ hbp, lookupRoute]

lemma register_outer_nodup (m : RoutesMap) (bp v f : String)
    (h : (m.map (fun e => e.1)).Nodup) :
    ((registerRoute m bp v f).map (fun e => e.1)).Nodup := by
  rw [registerRoute]
  cases getKV m bp <;> exact nodup_keys_setKV m bp _ h

lemma register_inner_nodup (m : RoutesMap) (bp v f : String)
    (h : ∀ e ∈ m, (e.2.map (fun q => q.1)).Nodup) :
    ∀ e ∈ registerRoute m bp v f, (e.2.map (fun q => q.1)).Nodup := by
  rw [registerRoute]
  cases hg : getKV m bp with
  | some vm =>
    intro e he
    rcases mem_setKV m bp (setKV vm v f) e he with h2 | h2
    · subst h2
      have hvm : (bp, vm) ∈ m := by
        rw [getKV] at hg
        cases hf : m.find? (fun e => e.1 == bp) with
        | none => rw [hf] at hg; exact Option.noConfusion hg
        | some q =>
          rw [hf] at hg
          have hq : q.2 = vm := by simpa using hg
          have hqm := List.mem_of_find?_eq_some hf
          have hq1 : q.1 = bp := by
            have := List.find?_some hf
            simpa using this
          rw [← hq1, ← hq]
          exact hqm
      exact nodup_keys_setKV vm v f (h _ hvm)
    · exact h e h2
  | none =>
    intro e he
    rcases mem_setKV m bp (setKV [] v f) e he with h2 | h2
    · subst h2
      simp [setKV]
    · exact h e h2

lemma lastWrite_cons (o : String × String × String) (ops : List (String × String × String))
    (bp v : String) :
    lastWrite (o :: ops) bp v =
      (match lastWrite ops bp v with
       | some f => some f
       | none => if o.1 == bp && o.2.1 == v then some o.2.2 else none) := by
  rw [lastWrite, lastWrite, List.reverse_cons, List.find?_append]
  cases hf : ops.reverse.find? (fun q => q.1 == bp && q.2.1 == v) with
  | some q => simp [Option.orElse]
  | none =>
    simp only [Option.orElse, Option.none_orElse]
    cases hc : (o.1 == bp && o.2.1 == v) with
    | true => simp [List.find?, hc]
    | false => simp [List.find?, hc]

lemma applyOps_lookup : ∀ (ops : List (String × String × String)) (m : RoutesMap) (bp v : String),
    lookupRoute (applyOps m ops) bp v =
      (match lastWrite ops bp v with
       | some f => some f
       | none => lookupRoute m bp v) := by
  intro ops
  induction ops with
  | nil =>
    intro m bp v
    simp [applyOps, lastWrite, List.find?]
  | cons o rest ih =>
    intro m bp v
    rw [applyOps, ih, lastWrite_cons]
    cases hlw : lastWrite rest bp v with
    | some f => rfl
    | none =>
      cases hc : (o.1 == bp && o.2.1 == v) with
      | true =>
        have hb : o.1 = bp ∧ o.2.1 = v := by
          have := Bool.and_eq_true _ _ ▸ hc
          exact ⟨by simpa using this.1, by simpa using this.2⟩
        rw [← hb.1, ← hb.2]
        simpa using lookupRoute_register_self m o.1 o.2.1 o.2.2
      | false =>
        simp only [Bool.false_eq_true, if_false]
        apply lookupRoute_register_ne
        rintro ⟨h1, h2⟩
        subst h1
        subst h2
        simp at hc

lemma applyOps_nodup : ∀ (ops : List (String × String × String)) (m : RoutesMap),
    (m.map (fun e => e.1)).Nodup →
    (∀ e ∈ m, (e.2.map (fun q => q.1)).Nodup) →
    ((applyOps m ops).map (fun e => e.1)).Nodup ∧
    (∀ e ∈ applyOps m ops, (e.2.map (fun q => q.1)).Nodup) := by
  intro ops
  induction ops with
  | nil => intro m h1 h2; exact ⟨h1, h2⟩
  | cons o rest ih =>
    intro m h1 h2
    rw [applyOps]
    exact ih _ (register_outer_nodup m o.1 o.2.1 o.2.2 h1)
      (register_inner_nodup m o.1 o.2.1 o.2.2 h2)

/-- **C7.** Replaying any sequence of route discoveries through the
registration step keeps, at every moment, at most one entry per version value
within each base path (all keys distinct, outer and inner), and the
registration looked up for a `(basePath, version)` pair is exactly the last
write for that pair — later discoveries overwrite earlier ones. -/
theorem registration_last_writer_wins (ops : List (String × String × String)) (bp v : String) :
    ((applyOps [] ops).map (fun e => e.1)).Nodup ∧
    (∀ e ∈ applyOps [] ops, (e.2.map (fun q => q.1)).Nodup) ∧
    lookupRoute (applyOps [] ops) bp v =
      (match lastWrite ops bp v with
       | some f => some f
       | none => none) := by
  obtain ⟨h1, h2⟩ := applyOps_nodup ops [] (by simp) (by simp)
  refine ⟨h1, h2, ?_⟩
  rw [applyOps_lookup]
  cases lastWrite ops bp v with
  | some f => rfl
  | none => simp [lookupRoute, getKV, List.find?]

/-- Witness for C7: two writes to the same pair; the second wins. -/
theorem registration_last_writer_wins_wit :
    lookupRoute (applyOps [] [("/a", "1", "f1"), ("/a", "1", "f2")]) "/a" "1" = some "f2" := by
  have h := (registration_last_writer_wins [("/a", "1", "f1"), ("/a", "1", "f2")] "/a" "1").2.2
  rw [h]
  decide

/-! ### C3 and C4: version sorting, mounting and fallback dispatch -/

lemma stripMount_none_of (mount url : String)
    (h : strHasPre mount.data url.data = false) : stripMount mount url = none := by
  simp [stripMount, h]

/-- **C4 (code evaluation at the failing input).** For base path `/b` with a
default registration and a version `3`: the default sorts first and mounts at
`/b`, version `3` mounts at `/v3/b` — but the fallback middleware rewrites to
prefix `/vdefault/b`, a path at which nothing is ever mounted, so a request
under `/v3/b` that its handler does not match is lost (here the default
handler accepts everything, yet the re-dispatched request finds no layer),
while the same path under `/b` is served. -/
theorem default_fallback_rewrites_to_unmounted_path :
    sortedKeys [("default", "fb"), ("3", "f3")] = ["default", "3"] ∧
    mountAll cfgOk tblC4 =
      [Ev.importRoute "fb", Ev.mountRoute "/b" "fb", Ev.importRoute "f3",
       Ev.mountRoute "/v3/b" "f3", Ev.mountFallback "/v3/b" "/vdefault/b"] ∧
    dispatch (fun f _ => f == "fb") (mountAll cfgOk tblC4) "/v3/b/x" = none ∧
    dispatch (fun f _ => f == "fb") (mountAll cfgOk tblC4) "/b/x" = some "fb" :=
  ⟨by decide, by decide, by decide, by decide⟩

lemma dataAppend7 (x : String) :
    ("/v10/a/" ++ x).data = '/' :: 'v' :: '1' :: '0' :: '/' :: 'a' :: '/' :: x.data := by
  rw [String.data_append]
  rfl

lemma dataAppend5 (x : String) :
    ("/v2/a" ++ ("/" ++ x)).data = '/' :: 'v' :: '2' :: '/' :: 'a' :: '/' :: x.data := by
  rw [String.data_append, String.data_append]
  rfl

lemma slashData (x : String) : ("/" ++ x).data = '/' :: x.data := by
  rw [String.data_append]
  rfl

/-- **C3.** For a version table holding base path `/a` with exactly versions
`2` and `10` and no default: the sort puts `2` before `10` (numeric-aware),
the handlers mount at `/v2/a` and `/v10/a` with the fallback rewriting
`/v10/a` onto `/v2/a`, and any request `/v10/a/x` that version 10's handler
does not match is rewritten to `/v2/a/x` and re-dispatched once, where
version 2's handler serves it. -/
theorem numeric_sort_and_fallback_redispatch :
    sortedKeys [("2", "f2"), ("10", "f10")] = ["2", "10"] ∧
    mountAll cfgOk tblC3 =
      [Ev.importRoute "f2", Ev.mountRoute "/v2/a" "f2", Ev.importRoute "f10",
       Ev.mountRoute "/v10/a" "f10", Ev.mountFallback "/v10/a" "/v2/a"] ∧
    (∀ (H : String → String → Bool) (x : String),
      H "f10" ("/" ++ x) = false → H "f2" ("/" ++ x) = true →
      dispatch H (mountAll cfgOk tblC3) ("/v10/a/" ++ x) = some "f2") := by
  refine ⟨by decide, by decide, ?_⟩
  intro H x h10 h2
  have hL : layersOf (mountAll cfgOk tblC3) =
      [Layer.route "/v2/a" "f2", Layer.route "/v10/a" "f10",
       Layer.fallback "/v10/a" "/v2/a"] := by decide
  have hs1 : stripMount "/v2/a" ("/v10/a/" ++ x) = none := by
    apply stripMount_none_of
    rw [dataAppend7]
    simp [strHasPre]
  have hsfx : String.mk ('/' :: x.data) = "/" ++ x := by
    rw [← slashData, strMkData]
  have hs2 : stripMount "/v10/a" ("/v10/a/" ++ x) = some ("/" ++ x) := by
    rw [stripMount]
    rw [if_pos ?hc]
    case hc =>
      rw [dataAppend7]
      simp [strHasPre]
    rw [dataAppend7]
    simp only [List.drop_succ_cons]
    rw [show ("/v10/a" : String).data.length = 6 from rfl]
    simp only [List.drop_succ_cons, List.drop_zero]
    exact congrArg some hsfx
  have hs3 : stripMount "/v2/a" ("/v2/a" ++ ("/" ++ x)) = some ("/" ++ x) := by
    rw [stripMount]
    rw [if_pos ?hc2]
    case hc2 =>
      rw [dataAppend5]
      simp [strHasPre]
    rw [dataAppend5]
    rw [show ("/v2/a" : String).data.length = 5 from rfl]
    simp only [List.drop_succ_cons, List.drop_zero]
    exact congrArg some hsfx
  rw [dispatch, hL]
  simp [scanPass, hs1, hs2, hs3, h10, h2]

/-- Witness for C3 at the concrete handler that serves version 2. -/
theorem numeric_sort_and_fallback_redispatch_wit :
    dispatch (fun f _ => f == "f2") (mountAll cfgOk tblC3) ("/v10/a/" ++ "x") = some "f2" :=
  numeric_sort_and_fallback_redispatch.2.2 (fun f _ => f == "f2") "x" (by decide) (by decide)

/-! ### C6: failure isolation in the mounting loop -/

lemma mem_sInsert (x y : String) : ∀ l, y ∈ sInsert x l ↔ y = x ∨ y ∈ l := by
  intro l
  induction l with
  | nil => simp [sInsert]
  | cons z zs ih =>
    rw [sInsert]
    split
    · simp only [List.mem_cons, ih]
      tauto
    · simp only [List.mem_cons]

lemma mem_jsSortVers (x : String) : ∀ l, x ∈ jsSortVers l ↔ x ∈ l := by
  have haux : ∀ (l acc : List String),
      x ∈ l.foldl (fun a b => sInsert b a) acc ↔ x ∈ acc ∨ x ∈ l := by
    intro l
    induction l with
    | nil => simp
    | cons c rest ih =>
      intro acc
      rw [List.foldl_cons, ih, mem_sInsert]
      simp only [List.mem_cons]
      tauto
  intro l
  rw [jsSortVers, haux]
  simp

lemma getKV_of_mem_nodup (vm : VMap) (v f : String)
    (hnd : (vm.map (fun q => q.1)).Nodup) (hm : (v, f) ∈ vm) : getKV vm v = some f := by
  induction vm with
  | nil => cases hm
  | cons q rest ih =>
    rcases List.mem_cons.mp hm with h | h
    · subst h
      simp [getKV, List.find?]
    · have hq : (q.1 == v) = false := by
        cases hqe : q.1 == v with
        | true =>
          exfalso
          rcases List.nodup_cons.mp hnd with ⟨hq1, _⟩
          simp only at hq1
          have hq1v : q.1 = v := by simpa using hqe
          rw [hq1v] at hq1
          exact hq1 (List.mem_map.mpr ⟨(v, f), h, rfl⟩)
        | false => rfl
      rw [getKV, List.find?]
      rw [hq]
      simp only [cond_false]
      have := ih (List.nodup_cons.mp hnd).2 h
      rw [getKV] at this
      exact this

lemma chainFile_of_mem (vm : VMap) (v f : String)
    (hnd : (vm.map (fun q => q.1)).Nodup) (hm : (v, f) ∈ vm) : chainFile vm v = f := by
  rw [chainFile, getKV_of_mem_nodup vm v f hnd hm]

lemma mountChain_covers (cfg : Config) (bp : String) (vm : VMap) :
    ∀ (l : List String) prevOpt v, v ∈ l →
      ∀ ev ∈ loadRoutesEv cfg bp (chainFile vm v) (chainVer v),
        ev ∈ mountChain cfg bp vm l prevOpt := by
  intro l
  induction l with
  | nil => intro _ v hv; cases hv
  | cons u rest ih =>
    intro prevOpt v hv ev hev
    rw [mountChain.eq_def]
    simp only [List.append_assoc, List.mem_append]
    rcases List.mem_cons.mp hv with h | h
    · subst h
      exact Or.inl hev
    · exact Or.inr (Or.inr (ih (some u) v h ev hev))

lemma mountChain_mountRoute_inv (cfg : Config) (bp : String) (vm : VMap) :
    ∀ (l : List String) prevOpt mp f,
      Ev.mountRoute mp f ∈ mountChain cfg bp vm l prevOpt →
      ∃ v ∈ l, f = chainFile vm v ∧ cfg.loadResult f = none ∧
        mp = versionedPathOf bp (chainVer v) := by
  intro l
  induction l with
  | nil => intro _ mp f h; cases h
  | cons u rest ih =>
    intro prevOpt mp f hmem
    rw [mountChain.eq_def] at hmem
    simp only [List.append_assoc, List.mem_append] at hmem
    rcases hmem with h | h | h
    · rw [loadRoutesEv] at h
      rcases hl : cfg.loadResult (chainFile vm u) with _ | e
      · rw [hl] at h
        simp only [List.mem_cons, List.not_mem_nil, or_false] at h
        rcases h with h | h
        · exact absurd h (by simp)
        · have h1 : mp = versionedPathOf bp (chainVer u) ∧ f = chainFile vm u := by
            have := Ev.mountRoute.injEq _ _ _ _ ▸ h
            exact ⟨this.1, this.2⟩
          refine ⟨u, List.mem_cons_self u rest, h1.2, ?_, h1.1⟩
          rw [h1.2]
          exact hl
      · rw [hl] at h
        cases e with
        | simple m =>
          simp only [List.mem_cons, List.not_mem_nil, or_false] at h
          rcases h with h | h | h <;> exact absurd h (by simp)
        | aggregate ms =>
          simp only [List.mem_cons] at h
          rcases h with h | h | h
          · exact absurd h (by simp)
          · exact absurd h (by simp)
          · obtain ⟨msg, _, hmsg⟩ := List.mem_map.mp h
            exact absurd hmsg (by simp)
    · cases prevOpt with
      | none => cases h
      | some pv =>
        simp only [List.mem_singleton] at h
        exact absurd h (by simp)
    · obtain ⟨v, hvl, rest2⟩ := ih (some u) mp f h
      exact ⟨v, List.mem_cons_of_mem u hvl, rest2⟩

lemma mountAll_covers (cfg : Config) : ∀ (m : RoutesMap) (bp : String) (vm : VMap),
    (bp, vm) ∈ m → ∀ v ∈ sortedKeys vm,
      ∀ ev ∈ loadRoutesEv cfg bp (chainFile vm v) (chainVer v), ev ∈ mountAll cfg m := by
  intro m
  induction m with
  | nil => intro bp vm h; cases h
  | cons p rest ih =>
    intro bp vm hm v hv ev hev
    rw [mountAll.eq_def]
    rcases List.mem_cons.mp hm with h | h
    · subst h
      simp only [List.mem_append]
      exact Or.inl (mountChain_covers cfg bp vm (sortedKeys vm) none v hv ev hev)
    · cases p with
      | mk bp2 vm2 =>
        simp only [List.mem_append]
        exact Or.inr (ih bp vm h v hv ev hev)

lemma mountAll_mountRoute_inv (cfg : Config) : ∀ (m : RoutesMap) (mp f : String),
    Ev.mountRoute mp f ∈ mountAll cfg m →
    ∃ bp vm, (bp, vm) ∈ m ∧ ∃ v, v ∈ sortedKeys vm ∧ f = chainFile vm v ∧
      cfg.loadResult f = none ∧ mp = versionedPathOf bp (chainVer v) := by
  intro m
  induction m with
  | nil => intro mp f h; cases h
  | cons p rest ih =>
    intro mp f hmem
    rw [mountAll.eq_def] at hmem
    cases p with
    | mk bp2 vm2 =>
      simp only [List.mem_append] at hmem
      rcases hmem with h | h
      · obtain ⟨v, hv, h2⟩ := mountChain_mountRoute_inv cfg bp2 vm2 (sortedKeys vm2) none mp f h
        exact ⟨bp2, vm2, List.mem_cons_self _ _, v, hv, h2⟩
      · obtain ⟨bp, vm, hmm, hrest⟩ := ih mp f h
        exact ⟨bp, vm, List.mem_cons_of_mem _ hmm, hrest⟩

lemma loadRoutesEv_err_header (cfg : Config) (bp file : String) (ver : Option String)
    (e : LoadErr) (h : cfg.loadResult file = some e) :
    Ev.logErr (routeErrHeader file) ∈ loadRoutesEv cfg bp file ver := by
  rw [loadRoutesEv, h]
  cases e <;> simp

lemma loadRoutesEv_err_causes (cfg : Config) (bp file : String) (ver : Option String)
    (msgs : List String) (h : cfg.loadResult file = some (LoadErr.aggregate msgs)) :
    ∀ msg ∈ msgs, Ev.logErr msg ∈ loadRoutesEv cfg bp file ver := by
  intro msg hmsg
  rw [loadRoutesEv, h]
  simp only [List.mem_cons]
  exact Or.inr (Or.inr (List.mem_map.mpr ⟨msg, hmsg, rfl⟩))

lemma loadRoutesEv_mount_mem (cfg : Config) (bp file : String) (ver : Option String)
    (h : cfg.loadResult file = none) :
    Ev.mountRoute (versionedPathOf bp ver) file ∈ loadRoutesEv cfg bp file ver := by
  rw [loadRoutesEv, h]
  simp

/-- **C6.** A route file whose import throws during mounting is excluded from
the mounted set everywhere; for every registration of that file the failure is
logged under a header carrying the file's path, and when the error is an
aggregate every constituent cause is logged individually; meanwhile every
sibling registration whose file imports cleanly is still mounted at its
versioned path. -/
theorem route_load_failure_isolation
    (cfg : Config) (m : RoutesMap) (f : String) (e : LoadErr)
    (hf : cfg.loadResult f = some e)
    (hwf : ∀ p ∈ m, ((p.2.map (fun q => q.1)).Nodup)) :
    (∀ mp, Ev.mountRoute mp f ∉ mountAll cfg m) ∧
    (∀ bp vm v, (bp, vm) ∈ m → (v, f) ∈ vm →
      Ev.logErr (routeErrHeader f) ∈ mountAll cfg m ∧
      (∀ msgs, e = LoadErr.aggregate msgs → ∀ msg ∈ msgs, Ev.logErr msg ∈ mountAll cfg m)) ∧
    (∀ bp vm v g, (bp, vm) ∈ m → (v, g) ∈ vm → cfg.loadResult g = none →
      Ev.mountRoute (versionedPathOf bp (chainVer v)) g ∈ mountAll cfg m) := by
  refine ⟨?_, ?_, ?_⟩
  · intro mp hmem
    obtain ⟨bp, vm, _, v, _, _, hok, _⟩ := mountAll_mountRoute_inv cfg m mp f hmem
    rw [hok] at hf
    exact Option.noConfusion hf
  · intro bp vm v hm hvf
    have hnd := hwf _ hm
    have hcf : chainFile vm v = f := chainFile_of_mem vm v f hnd hvf
    have hvk : v ∈ sortedKeys vm := by
      rw [sortedKeys, mem_jsSortVers]
      exact List.mem_map.mpr ⟨(v, f), hvf, rfl⟩
    constructor
    · apply mountAll_covers cfg m bp vm hm v hvk
      rw [hcf]
      exact loadRoutesEv_err_header cfg bp f (chainVer v) e hf
    · intro msgs hmsgs msg hmsg
      apply mountAll_covers cfg m bp vm hm v hvk
      rw [hcf]
      subst hmsgs
      exact loadRoutesEv_err_causes cfg bp f (chainVer v) msgs hf msg hmsg
  · intro bp vm v g hm hvg hok
    have hnd := hwf _ hm
    have hcf : chainFile vm v = g := chainFile_of_mem vm v g hnd hvg
    have hvk : v ∈ sortedKeys vm := by
      rw [sortedKeys, mem_jsSortVers]
      exact List.mem_map.mpr ⟨(v, g), hvg, rfl⟩
    have := mountAll_covers cfg m bp vm hm v hvk
    apply this
    rw [hcf]
    exact loadRoutesEv_mount_mem cfg bp g (chainVer v) hok

/-- Witness for C6: the aggregate-failing version 1 of `/a` is excluded and
logged cause by cause, while its healthy sibling version 2 mounts. -/
theorem route_load_failure_isolation_wit :
    Ev.mountRoute "/v1/a" "bad" ∉ mountAll cfgC6 tblC6 ∧
    Ev.logErr (routeErrHeader "bad") ∈ mountAll cfgC6 tblC6 ∧
    Ev.logErr "cause one" ∈ mountAll cfgC6 tblC6 ∧
    Ev.mountRoute "/v2/a" "good" ∈ mountAll cfgC6 tblC6 := by
  have h := route_load_failure_isolation cfgC6 tblC6 "bad"
    (LoadErr.aggregate ["cause one", "cause two"]) (by decide)
    (by
      intro p hp
      simp only [tblC6, List.mem_singleton] at hp
      subst hp
      decide)
  have h2 := h.2.1 "/a" [("1", "bad"), ("2", "good")] "1" (by simp [tblC6]) (by simp)
  refine ⟨h.1 "/v1/a", h2.1, h2.2 ["cause one", "cause two"] rfl "cause one" (by simp), ?_⟩
  have h3 := h.2.2 "/a" [("1", "bad"), ("2", "good")] "2" "good" (by simp [tblC6]) (by simp)
    (by decide)
  have hv : versionedPathOf "/a" (chainVer "2") = "/v2/a" := by decide
  rw [hv] at h3
  exact h3

/-! ### C8: files outside their category folder -/

lemma router_name_excl (nm : String) (h : jsEndsWith nm ".router.js" = true) :
    jsEndsWith nm ".listener.js" = false ∧ jsEndsWith nm ".consumer.js" = false ∧
    jsEndsWith nm ".middleware.js" = false ∧ jsEndsWith nm ".cron.js" = false := by
  refine ⟨?_, ?_, ?_, ?_⟩
  · cases hx : jsEndsWith nm ".listener.js" with
    | false => rfl
    | true =>
      exact absurd ⟨h, hx⟩ (not_both_endsWith nm ".router.js" ".listener.js" (by decide) (by decide))
  · cases hx : jsEndsWith nm ".consumer.js" with
    | false => rfl
    | true =>
      exact absurd ⟨h, hx⟩ (not_both_endsWith nm ".router.js" ".consumer.js" (by decide) (by decide))
  · cases hx : jsEndsWith nm ".middleware.js" with
    | false => rfl
    | true =>
      exact absurd ⟨h, hx⟩
        (not_both_endsWith nm ".router.js" ".middleware.js" (by decide) (by decide))
  · cases hx : jsEndsWith nm ".cron.js" with
    | false => rfl
    | true =>
      exact absurd ⟨hx, h⟩ (not_both_endsWith nm ".cron.js" ".router.js" (by decide) (by decide))

lemma router_importCond_false (e : Entry) (h : jsEndsWith e.name ".router.js" = true) :
    importCond e = false := by
  obtain ⟨h1, h2, h3, h4⟩ := router_name_excl e.name h
  simp [importCond, h1, h2, h3, h4]

/-- **C8 (counterexample).** A file `foo.router.js` directly under a folder
named `myroutes` — which is not named `routes`, but whose path still ends with
the string `routes` — is registered and mounted, because the code checks
`endsWith(folderPath, 'routes')`, not the folder's name. -/
theorem router_under_myroutes_is_mounted :
    Ev.routeReg "/foo" "default" "src/modules/myroutes/foo.router.js" ∈
      loadServer cfgOk fsC8 20 ∧
    Ev.mountRoute "/foo" "src/modules/myroutes/foo.router.js" ∈ loadServer cfgOk fsC8 20 ∧
    ("myroutes" : String) ≠ "routes" :=
  ⟨by decide, by decide, by decide⟩

/-- **C8 (amended).** A non-directory entry whose name ends in `.router.js`,
sitting in a folder whose joined path does not end with the string `routes`,
is ignored by `processFile`: the route table is unchanged and the only event
it can produce is the static mount of a `public`-suffixed containing folder —
never a registration, an import, or an error log for the file. -/
theorem router_ignored_outside_routes_suffix
    (cfg : Config) (fs : FSTree) (fuel : Nat) (e : Entry) (routes : RoutesMap)
    (hname : jsEndsWith e.name ".router.js" = true)
    (hfolder : pEndsWith e.folder "routes" = false)
    (hnd : isDir fs e.actual = false) :
    (processFile cfg fs fuel e routes).2 = routes ∧
    ∀ ev ∈ (processFile cfg fs fuel e routes).1, ev = Ev.staticMount (joinPath e.folder) := by
  cases fuel with
  | zero => exact ⟨rfl, by simp [processFile]⟩
  | succ n =>
    have hic := router_importCond_false e hname
    have hroute : (jsEndsWith e.name ".router.js" && pEndsWith e.folder "routes") = false := by
      rw [hname, hfolder]
      rfl
    rw [processFile]
    rw [hnd]
    simp only [Bool.false_eq_true, if_false]
    cases hp : pEndsWith e.folder "public" with
    | true => simp
    | false =>
      simp only [Bool.false_eq_true, if_false]
      rw [hic, hroute]
      simp

/-- Witness for the amended C8 at a concrete stray router file. -/
theorem router_ignored_outside_routes_suffix_wit :
    (processFile cfgOk fsC8 5 ⟨["x"], "foo.router.js", ["x", "foo.router.js"]⟩ []).2 = [] :=
  (router_ignored_outside_routes_suffix cfgOk fsC8 5
    ⟨["x"], "foo.router.js", ["x", "foo.router.js"]⟩ [] (by decide) (by decide) (by decide)).1

/-! ### C9: bucket order within one directory visit -/

lemma classifyEntry_name (fs : FSTree) (folder ovr : List String) (name : String) :
    (classifyEntry fs folder ovr name).name = name := by
  simp only [classifyEntry]
  split <;> rfl

lemma bucketize_mem (fs : FSTree) (folder ovr : List String) :
    ∀ files : List String,
      (∀ e ∈ (bucketize fs folder ovr files).mws,
        jsEndsWith e.name ".middleware.js" = true ∧ pEndsWith e.folder "middlewares" = true) ∧
      (∀ e ∈ (bucketize fs folder ovr files).routers,
        jsEndsWith e.name ".router.js" = true ∧ pEndsWith e.folder "routes" = true) ∧
      (∀ e ∈ (bucketize fs folder ovr files).others,
        (jsEndsWith e.name ".middleware.js" && pEndsWith e.folder "middlewares") = false ∧
        (jsEndsWith e.name ".router.js" && pEndsWith e.folder "routes") = false) := by
  intro files
  induction files with
  | nil => simp [bucketize]
  | cons name rest ih =>
    obtain ⟨ihm, ihr, iho⟩ := ih
    rw [bucketize]
    by_cases hd : isDir fs (folder ++ [name]) = true
    · rw [if_pos hd]
      exact ⟨ihm, ihr, iho⟩
    · rw [if_neg hd]
      by_cases hmw : (jsEndsWith name ".middleware.js" &&
          pEndsWith (classifyEntry fs folder ovr name).folder "middlewares") = true
      · rw [if_pos hmw]
        refine ⟨?_, ihr, iho⟩
        intro e he
        rcases List.mem_cons.mp he with h | h
        · subst h
          rcases Bool.and_eq_true _ _ ▸ hmw with ⟨h1, h2⟩
          exact ⟨by rw [classifyEntry_name]; exact h1, h2⟩
        · exact ihm e h
      · have hmw2 : (jsEndsWith name ".middleware.js" &&
            pEndsWith (classifyEntry fs folder ovr name).folder "middlewares") = false := by
          simpa using hmw
        rw [if_neg hmw]
        by_cases hrt : (jsEndsWith name ".router.js" &&
            pEndsWith (classifyEntry fs folder ovr name).folder "routes") = true
        · rw [if_pos hrt]
          refine ⟨ihm, ?_, iho⟩
          intro e he
          rcases List.mem_cons.mp he with h | h
          · subst h
            rcases Bool.and_eq_true _ _ ▸ hrt with ⟨h1, h2⟩
            exact ⟨by rw [classifyEntry_name]; exact h1, h2⟩
          · exact ihr e h
        · have hrt2 : (jsEndsWith name ".router.js" &&
              pEndsWith (classifyEntry fs folder ovr name).folder "routes") = false := by
            simpa using hrt
          rw [if_neg hrt]
          refine ⟨ihm, ihr, ?_⟩
          intro e he
          rcases List.mem_cons.mp he with h | h
          · subst h
            constructor
            · rw [classifyEntry_name]
              exact hmw2
            · rw [classifyEntry_name]
              exact hrt2
          · exact iho e h

lemma pf_mw_entry (cfg : Config) (fs : FSTree) : ∀ (fuel : Nat) (e : Entry) (routes : RoutesMap),
    isDir fs e.actual = false →
    jsEndsWith e.name ".middleware.js" = true →
    pEndsWith e.folder "middlewares" = true →
    ∀ ev ∈ (processFile cfg fs fuel e routes).1,
      ev = Ev.importMw (joinPath e.actual) ∨
      ev = Ev.logErr ("Error loading file " ++ joinPath e.actual ++ ":") := by
  intro fuel e routes hnd hn hf
  cases fuel with
  | zero => simp [processFile]
  | succ n =>
    have hpub : pEndsWith e.folder "public" = false := by
      cases hx : pEndsWith e.folder "public" with
      | false => rfl
      | true =>
        exact absurd ⟨hx, hf⟩
          (not_both_endsWith (joinPath e.folder) "public" "middlewares" (by decide) (by decide))
    have hic : importCond e = true := by
      simp [importCond, hn, hf]
    have hmk : mkImportEv e (joinPath e.actual) = Ev.importMw (joinPath e.actual) := by
      simp [mkImportEv, hn, hf]
    rw [processFile, hnd]
    simp only [Bool.false_eq_true, if_false]
    rw [hpub]
    simp only [Bool.false_eq_true, if_false]
    rw [hic]
    simp only [if_true]
    cases cfg.loadResult (joinPath e.actual) with
    | none =>
      intro ev hev
      simp only [List.mem_singleton] at hev
      subst hev
      rw [hmk]
      exact Or.inl rfl
    | some err =>
      intro ev hev
      simp only [List.mem_cons, List.not_mem_nil, or_false] at hev
      rcases hev with h | h
      · subst h
        rw [hmk]
        exact Or.inl rfl
      · subst h
        exact Or.inr rfl

lemma pf_other_entry (cfg : Config) (fs : FSTree) : ∀ (fuel : Nat) (e : Entry) (routes : RoutesMap),
    isDir fs e.actual = false →
    (jsEndsWith e.name ".middleware.js" && pEndsWith e.folder "middlewares") = false →
    (jsEndsWith e.name ".router.js" && pEndsWith e.folder "routes") = false →
    ∀ ev ∈ (processFile cfg fs fuel e routes).1,
      (∀ p, ev ≠ Ev.importMw p) ∧ (∀ a b c, ev ≠ Ev.routeReg a b c) ∧
      (∀ p, ev ≠ Ev.importRoute p) := by
  intro fuel e routes hnd hmw hrt
  cases fuel with
  | zero => simp [processFile]
  | succ n =>
    have hmk : mkImportEv e (joinPath e.actual) = Ev.importUnit (joinPath e.actual) := by
      simp [mkImportEv, hmw]
    rw [processFile, hnd]
    simp only [Bool.false_eq_true, if_false]
    cases hp : pEndsWith e.folder "public" with
    | true =>
      intro ev hev
      simp only [if_true, List.mem_singleton] at hev
      subst hev
      refine ⟨?_, ?_, ?_⟩ <;> intros <;> simp
    | false =>
      simp only [Bool.false_eq_true, if_false]
      cases hic : importCond e with
      | true =>
        simp only [if_true]
        cases cfg.loadResult (joinPath e.actual) with
        | none =>
          intro ev hev
          simp only [List.mem_singleton] at hev
          subst hev
          rw [hmk]
          refine ⟨?_, ?_, ?_⟩ <;> intros <;> simp
        | some err =>
          intro ev hev
          simp only [List.mem_cons, List.not_mem_nil, or_false] at hev
          rcases hev with h | h <;> subst h
          · rw [hmk]
            refine ⟨?_, ?_, ?_⟩ <;> intros <;> simp
          · refine ⟨?_, ?_, ?_⟩ <;> intros <;> simp
      | false =>
        simp only [Bool.false_eq_true, if_false]
        rw [hrt]
        simp

lemma pf_router_entry (cfg : Config) (fs : FSTree) : ∀ (fuel : Nat) (e : Entry) (routes : RoutesMap),
    isDir fs e.actual = false →
    jsEndsWith e.name ".router.js" = true →
    pEndsWith e.folder "routes" = true →
    ∀ ev ∈ (processFile cfg fs fuel e routes).1,
      ev = Ev.routeReg (routeParse (basenameStrip e.name ".router.js")).1
        (routeParse (basenameStrip e.name ".router.js")).2 (joinPath e.actual) := by
  intro fuel e routes hnd hn hf
  cases fuel with
  | zero => simp [processFile]
  | succ n =>
    have hpub : pEndsWith e.folder "public" = false := by
      cases hx : pEndsWith e.folder "public" with
      | false => rfl
      | true =>
        exact absurd ⟨hx, hf⟩
          (not_both_endsWith (joinPath e.folder) "public" "routes" (by decide) (by decide))
    have hic := router_importCond_false e hn
    have hroute : (jsEndsWith e.name ".router.js" && pEndsWith e.folder "routes") = true := by
      rw [hn, hf]
      rfl
    rw [processFile, hnd]
    simp only [Bool.false_eq_true, if_false]
    rw [hpub]
    simp only [Bool.false_eq_true, if_false]
    rw [hic]
    simp only [Bool.false_eq_true, if_false]
    rw [hroute]
    simp only [if_true]
    intro ev hev
    simp only [List.mem_singleton] at hev
    subst hev
    rfl

lemma pfFold_trace_pred (cfg : Config) (fs : FSTree) (P : Ev → Prop) :
    ∀ (es : List Entry) (fuel : Nat) (routes : RoutesMap),
      (∀ e ∈ es, ∀ (fuel2 : Nat) (routes2 : RoutesMap),
        ∀ ev ∈ (processFile cfg fs fuel2 e routes2).1, P ev) →
      ∀ ev ∈ (pfFold cfg fs fuel es routes).1, P ev := by
  intro es
  induction es with
  | nil =>
    intro fuel routes _ ev hev
    cases fuel <;> simp [pfFold] at hev
  | cons e rest ih =>
    intro fuel routes h ev hev
    cases fuel with
    | zero => simp [pfFold] at hev
    | succ n =>
      simp only [pfFold, List.mem_append] at hev
      rcases hev with hh | hh
      · exact h e (List.mem_cons_self e rest) n routes ev hh
      · exact ih n _ (fun q hq => h q (List.mem_cons_of_mem e hq)) ev hh

/-- **C9 (counterexample).** In a `routes` folder holding a router file and a
`listeners` subfolder, the subfolder's listener is imported during the
recursion into subdirectories *before* the router file is registered: the
route bucket is processed after the recursion, not before it. -/
theorem subdir_walk_precedes_route_registration :
    (readModulesFolder cfgOk fsC9 20 ["routes"] [] false []).1 =
      [Ev.importUnit "routes/listeners/b.listener.js",
       Ev.routeReg "/a" "default" "routes/a.router.js"] := by
  decide

/-- **C9 (amended).** For every directory the walker visits, its file entries
are separated into three buckets — middleware files, router files, everything
else — and the visit's trace is exactly the concatenation, in this order, of
the middleware-bucket trace `A` (empty in phase 2), the other-files trace `B`,
the subdirectory-recursion trace `C`, and the route-bucket trace `D`, where
each segment is pinned to the fold over its own bucket by `visitSegs`.
Provided each bucket entry's resolved path is a file (not a directory),
`A` holds only middleware imports of the middleware bucket's resolved paths
and their error logs, `B` holds no middleware import, no registration and no
route import, `D` holds exactly route registrations of the route bucket's
parsed base path, version and resolved path, and no route file is
ever imported during the walk. -/
theorem walker_bucket_order
    (cfg : Config) (fs : FSTree) (n : Nat) (folder ovr : List String) (skipMw : Bool)
    (routes : RoutesMap) (files : List String) (A B C D : List Ev)
    (hr : readdir fs folder = some files)
    (hnd : (∀ e ∈ (bucketize fs folder ovr files).mws, isDir fs e.actual = false) ∧
      (∀ e ∈ (bucketize fs folder ovr files).others, isDir fs e.actual = false) ∧
      (∀ e ∈ (bucketize fs folder ovr files).routers, isDir fs e.actual = false))
    (hseg : visitSegs cfg fs n folder ovr skipMw routes files = (A, B, C, D)) :
    (readModulesFolder cfg fs (n + 1) folder ovr skipMw routes).1 = A ++ B ++ C ++ D ∧
    (skipMw = true → A = []) ∧
    (∀ ev ∈ A, ∃ e ∈ (bucketize fs folder ovr files).mws,
      ev = Ev.importMw (joinPath e.actual) ∨
      ev = Ev.logErr ("Error loading file " ++ joinPath e.actual ++ ":")) ∧
    (∀ ev ∈ B, (∀ p, ev ≠ Ev.importMw p) ∧ (∀ a b c, ev ≠ Ev.routeReg a b c) ∧
      (∀ p, ev ≠ Ev.importRoute p)) ∧
    (∀ ev ∈ D, ∃ e ∈ (bucketize fs folder ovr files).routers,
      ev = Ev.routeReg (routeParse (basenameStrip e.name ".router.js")).1
        (routeParse (basenameStrip e.name ".router.js")).2 (joinPath e.actual)) ∧
    (∀ p, Ev.importRoute p ∉ (readModulesFolder cfg fs (n + 1) folder ovr skipMw routes).1) := by
  obtain ⟨hbm, hbr, hbo⟩ := bucketize_mem fs folder ovr files
  obtain ⟨hndm, hndo, hndr⟩ := hnd
  have hA : (visitSegs cfg fs n folder ovr skipMw routes files).1 = A := by rw [hseg]
  have hB : (visitSegs cfg fs n folder ovr skipMw routes files).2.1 = B := by rw [hseg]
  have hC : (visitSegs cfg fs n folder ovr skipMw routes files).2.2.1 = C := by rw [hseg]
  have hD : (visitSegs cfg fs n folder ovr skipMw routes files).2.2.2 = D := by rw [hseg]
  refine ⟨?_, ?_, ?_, ?_, ?_, ?_⟩
  · rw [readModulesFolder, hr, ← hA, ← hB, ← hC, ← hD]
    rfl
  · intro hsk
    subst hsk
    rw [← hA]
    simp [visitSegs]
  · intro ev hev
    rw [← hA] at hev
    cases hsk : skipMw with
    | true =>
      subst hsk
      simp [visitSegs] at hev
    | false =>
      subst hsk
      have hev2 : ev ∈ (pfFold cfg fs n (bucketize fs folder ovr files).mws routes).1 := hev
      have key : ∀ ev2 ∈ (pfFold cfg fs n (bucketize fs folder ovr files).mws routes).1,
          ∃ e ∈ (bucketize fs folder ovr files).mws,
            ev2 = Ev.importMw (joinPath e.actual) ∨
            ev2 = Ev.logErr ("Error loading file " ++ joinPath e.actual ++ ":") := by
        apply pfFold_trace_pred
        intro e he fuel2 routes2 ev3 hev3
        obtain ⟨hen, hff⟩ := hbm e he
        rcases pf_mw_entry cfg fs fuel2 e routes2 (hndm e he) hen hff ev3 hev3 with h | h
        · exact ⟨e, he, Or.inl h⟩
        · exact ⟨e, he, Or.inr h⟩
      exact key ev hev2
  · intro ev hev
    rw [← hB] at hev
    have hev2 : ev ∈ (pfFold cfg fs n (bucketize fs folder ovr files).others
        (if skipMw then (([] : List Ev), routes)
         else pfFold cfg fs n (bucketize fs folder ovr files).mws routes).2).1 := hev
    have key : ∀ ev2 ∈ (pfFold cfg fs n (bucketize fs folder ovr files).others
        (if skipMw then (([] : List Ev), routes)
         else pfFold cfg fs n (bucketize fs folder ovr files).mws routes).2).1,
        (∀ p, ev2 ≠ Ev.importMw p) ∧ (∀ a b c, ev2 ≠ Ev.routeReg a b c) ∧
        (∀ p, ev2 ≠ Ev.importRoute p) := by
      apply pfFold_trace_pred
      intro e he fuel2 routes2 ev3 hev3
      obtain ⟨hmw, hrt⟩ := hbo e he
      exact pf_other_entry cfg fs fuel2 e routes2 (hndo e he) hmw hrt ev3 hev3
    exact key ev hev2
  · intro ev hev
    rw [← hD] at hev
    have hev2 : ev ∈ (pfFold cfg fs n (bucketize fs folder ovr files).routers
        (dirFold cfg fs n folder ovr skipMw (bucketize fs folder ovr files).dirNames
          (pfFold cfg fs n (bucketize fs folder ovr files).others
            (if skipMw then (([] : List Ev), routes)
             else pfFold cfg fs n (bucketize fs folder ovr files).mws routes).2).2).2).1 := hev
    have key : ∀ ev2 ∈ (pfFold cfg fs n (bucketize fs folder ovr files).routers
        (dirFold cfg fs n folder ovr skipMw (bucketize fs folder ovr files).dirNames
          (pfFold cfg fs n (bucketize fs folder ovr files).others
            (if skipMw then (([] : List Ev), routes)
             else pfFold cfg fs n (bucketize fs folder ovr files).mws routes).2).2).2).1,
        ∃ e ∈ (bucketize fs folder ovr files).routers,
          ev2 = Ev.routeReg (routeParse (basenameStrip e.name ".router.js")).1
            (routeParse (basenameStrip e.name ".router.js")).2 (joinPath e.actual) := by
      apply pfFold_trace_pred
      intro e he fuel2 routes2 ev3 hev3
      obtain ⟨hen, hff⟩ := hbr e he
      exact ⟨e, he, pf_router_entry cfg fs fuel2 e routes2 (hndr e he) hen hff ev3 hev3⟩
    exact key ev hev2
  · intro p hmem
    have := (walkShape cfg fs (n + 1)).2.1 folder ovr skipMw routes _ hmem
    simp [isWalkEv] at this

/-- Witness for the amended C9 on the concrete `routes` tree: the event that
imports the listener lands in the recursion segment `C` and the registration
in the route segment `D`. -/
theorem walker_bucket_order_wit :
    (readModulesFolder cfgOk fsC9 (19 + 1) ["routes"] [] false []).1 =
      [] ++ [] ++ [Ev.importUnit "routes/listeners/b.listener.js"] ++
        [Ev.routeReg "/a" "default" "routes/a.router.js"] ∧
    (false = true → ([] : List Ev) = []) ∧
    (∀ ev ∈ ([] : List Ev),
      ∃ e ∈ (bucketize fsC9 ["routes"] [] ["a.router.js", "listeners"]).mws,
      ev = Ev.importMw (joinPath e.actual) ∨
      ev = Ev.logErr ("Error loading file " ++ joinPath e.actual ++ ":")) ∧
    (∀ ev ∈ ([] : List Ev), (∀ p, ev ≠ Ev.importMw p) ∧ (∀ a b c, ev ≠ Ev.routeReg a b c) ∧
      (∀ p, ev ≠ Ev.importRoute p)) ∧
    (∀ ev ∈ [Ev.routeReg "/a" "default" "routes/a.router.js"],
      ∃ e ∈ (bucketize fsC9 ["routes"] [] ["a.router.js", "listeners"]).routers,
      ev = Ev.routeReg (routeParse (basenameStrip e.name ".router.js")).1
        (routeParse (basenameStrip e.name ".router.js")).2 (joinPath e.actual)) ∧
    (∀ p, Ev.importRoute p ∉ (readModulesFolder cfgOk fsC9 (19 + 1) ["routes"] [] false []).1) :=
  walker_bucket_order cfgOk fsC9 19 ["routes"] [] false [] ["a.router.js", "listeners"]
    [] [] [Ev.importUnit "routes/listeners/b.listener.js"]
    [Ev.routeReg "/a" "default" "routes/a.router.js"]
    (by decide) ⟨by decide, by decide, by decide⟩ (by decide)

/-! ### C10: fallback installation is unconditional -/

lemma strDataInj (s t : String) (h : s.data = t.data) : s = t := by
  cases s with
  | mk d1 =>
    cases t with
    | mk d2 =>
      have h2 : d1 = d2 := h
      rw [h2]

lemma bpWF_data (s : String) (h : bpWFb s = true) :
    ∃ rest, s.data = '/' :: rest ∧ ∀ c ∈ rest, c ≠ '/' := by
  rw [bpWFb] at h
  rcases hsd : s.data with _ | ⟨c, rest⟩
  · rw [hsd] at h
    exact Bool.noConfusion h
  · rw [hsd] at h
    rcases Bool.and_eq_true _ _ ▸ h with ⟨h1, h2⟩
    have hc : c = '/' := by simpa using h1
    subst hc
    refine ⟨rest, rfl, ?_⟩
    intro x hx
    have := List.all_eq_true.mp h2 x hx
    simpa using this

lemma verWF_no_slash (v : String) (h : verWFb v = true) (hnd : (v == "default") = false) :
    v.data ≠ [] ∧ ∀ c ∈ v.data, c ≠ '/' ∧ (c.isDigit = true ∨ c = '.') := by
  rw [verWFb, hnd] at h
  simp only [Bool.false_or, Bool.and_eq_true] at h
  obtain ⟨h1, h2⟩ := h
  refine ⟨by simpa [List.isEmpty_iff] using h1, ?_⟩
  intro c hc
  have := List.all_eq_true.mp h2 c hc
  have hdd : c.isDigit = true ∨ c = '.' := by
    rcases Bool.or_eq_true _ _ ▸ this with hh | hh
    · exact Or.inl hh
    · exact Or.inr (by simpa using hh)
  refine ⟨?_, hdd⟩
  intro hcs
  subst hcs
  rcases hdd with hh | hh
  · exact absurd hh (by decide)
  · exact absurd hh (by decide)

lemma split_no_slash : ∀ (a c b d : List Char),
    (∀ x ∈ a, x ≠ '/') → (∀ x ∈ c, x ≠ '/') →
    b.head? = some '/' → d.head? = some '/' →
    a ++ b = c ++ d → a = c ∧ b = d := by
  intro a
  induction a with
  | nil =>
    intro c b d _ hc hb hd heq
    cases c with
    | nil => exact ⟨rfl, by simpa using heq⟩
    | cons y c2 =>
      exfalso
      have hbe : b = y :: (c2 ++ d) := by simpa using heq
      rw [hbe] at hb
      have : y = '/' := by simpa using hb
      exact hc y (List.mem_cons_self y c2) this
  | cons x a2 ih =>
    intro c b d ha hc hb hd heq
    cases c with
    | nil =>
      exfalso
      have hde : d = x :: (a2 ++ b) := by simpa using heq.symm
      rw [hde] at hd
      have : x = '/' := by simpa using hd
      exact ha x (List.mem_cons_self x a2) this
    | cons y c2 =>
      have hxy : x = y ∧ a2 ++ b = c2 ++ d := by simpa using heq
      obtain ⟨h1, h2⟩ :=
        ih c2 b d (fun q hq => ha q (List.mem_cons_of_mem x hq))
          (fun q hq => hc q (List.mem_cons_of_mem y hq)) hb hd hxy.2
      exact ⟨by rw [hxy.1, h1], h2⟩

lemma assoc_unique {α : Type} (m : List (String × α)) (k : String) (v1 v2 : α)
    (h : (m.map (fun e => e.1)).Nodup) (h1 : (k, v1) ∈ m) (h2 : (k, v2) ∈ m) : v1 = v2 := by
  induction m with
  | nil => cases h1
  | cons q rest ih =>
    rcases List.nodup_cons.mp h with ⟨hq, hrest⟩
    simp only at hq
    rcases List.mem_cons.mp h1 with ha | ha <;> rcases List.mem_cons.mp h2 with hb | hb
    · rw [← ha] at hb
      exact (Prod.mk.injEq _ _ _ _ ▸ hb).2.symm
    · exfalso
      apply hq
      rw [← ha]
      exact List.mem_map.mpr ⟨(k, v2), hb, rfl⟩
    · exfalso
      apply hq
      rw [← hb]
      exact List.mem_map.mpr ⟨(k, v1), ha, rfl⟩
    · exact ih hrest ha hb

lemma strDataVPath (v bp : String) :
    ("/v" ++ v ++ bp).data = '/' :: 'v' :: (v.data ++ bp.data) := by
  rw [String.data_append, String.data_append]
  simp

lemma mountChain_fallback_head (cfg : Config) (bp : String) (vm : VMap)
    (rest : List String) (v p : String) :
    Ev.mountFallback ("/v" ++ v ++ bp) ("/v" ++ p ++ bp) ∈
      mountChain cfg bp vm (v :: rest) (some p) := by
  rw [mountChain.eq_def]
  simp only [List.append_assoc, List.mem_append]
  right
  left
  simp

lemma mountChain_fallback_mem (cfg : Config) (bp : String) (vm : VMap) :
    ∀ (l : List String) (prevOpt : Option String) (i : Nat) (v prev : String),
      l[i + 1]? = some v → l[i]? = some prev →
      Ev.mountFallback ("/v" ++ v ++ bp) ("/v" ++ prev ++ bp) ∈
        mountChain cfg bp vm l prevOpt := by
  intro l
  induction l with
  | nil => intro _ i v prev h1 _; simp at h1
  | cons u rest ih =>
    intro prevOpt i v prev h1 h2
    cases i with
    | zero =>
      have hu : u = prev := by simpa using h2
      have hv0 : rest[0]? = some v := by simpa using h1
      subst hu
      cases rest with
      | nil => simp at hv0
      | cons w rest2 =>
        have hw : w = v := by simpa using hv0
        subst hw
        rw [mountChain.eq_def]
        simp only [List.append_assoc, List.mem_append]
        right
        right
        exact mountChain_fallback_head cfg bp vm rest2 w u
    | succ j =>
      have h1r : rest[j + 1]? = some v := by simpa using h1
      have h2r : rest[j]? = some prev := by simpa using h2
      rw [mountChain.eq_def]
      simp only [List.append_assoc, List.mem_append]
      right
      right
      exact ih (some u) j v prev h1r h2r

lemma mountAll_fallback_mem (cfg : Config) : ∀ (m : RoutesMap) (bp : String) (vm : VMap)
    (i : Nat) (v prev : String), (bp, vm) ∈ m →
    (sortedKeys vm)[i + 1]? = some v → (sortedKeys vm)[i]? = some prev →
    Ev.mountFallback ("/v" ++ v ++ bp) ("/v" ++ prev ++ bp) ∈ mountAll cfg m := by
  intro m
  induction m with
  | nil => intro bp vm i v prev h; cases h
  | cons p rest ih =>
    intro bp vm i v prev hm h1 h2
    rw [mountAll.eq_def]
    cases p with
    | mk bp2 vm2 =>
      simp only [List.mem_append]
      rcases List.mem_cons.mp hm with h | h
      · left
        have hb1 : bp2 = bp := (congrArg Prod.fst h).symm
        have hb2 : vm2 = vm := (congrArg Prod.snd h).symm
        rw [hb1, hb2]
        exact mountChain_fallback_mem cfg bp vm (sortedKeys vm) none i v prev h1 h2
      · exact Or.inr (ih bp vm i v prev h h1 h2)

/-- **C10.** In a well-formed version table, for every non-first version `v`
of a base path's sorted version list the fallback rewrite middleware onto the
predecessor's version-qualified path is installed unconditionally — also when
the predecessor's route file fails to load; in that case the rewrite target
`/v{prev}{basePath}` is a path at which no handler at all is mounted (in
particular, when the predecessor is the `default` version the target
`/vdefault{basePath}` never has a handler). -/
theorem fallback_installed_even_after_failed_predecessor
    (cfg : Config) (m : RoutesMap) (bp : String) (vm : VMap) (i : Nat) (v prev : String)
    (e : LoadErr)
    (hwf : tableWF m)
    (hm : (bp, vm) ∈ m)
    (hv : (sortedKeys vm)[i + 1]? = some v)
    (hprev : (sortedKeys vm)[i]? = some prev)
    (hfail : cfg.loadResult (chainFile vm prev) = some e) :
    Ev.mountFallback ("/v" ++ v ++ bp) ("/v" ++ prev ++ bp) ∈ mountAll cfg m ∧
    ∀ g, Ev.mountRoute ("/v" ++ prev ++ bp) g ∉ mountAll cfg m := by
  obtain ⟨hnodup, hentries⟩ := hwf
  obtain ⟨hbpWF, hvmnd, hvers⟩ := hentries (bp, vm) hm
  have hprevWF : verWFb prev = true := by
    have hmem : prev ∈ sortedKeys vm := List.getElem?_mem hprev
    rw [sortedKeys, mem_jsSortVers] at hmem
    obtain ⟨q, hq, hq1⟩ := List.mem_map.mp hmem
    rw [← hq1]
    exact hvers q hq
  refine ⟨mountAll_fallback_mem cfg m bp vm i v prev hm hv hprev, ?_⟩
  intro g hmem
  obtain ⟨bp2, vm2, hm2, v2, hv2s, hgf, hok, hpath⟩ := mountAll_mountRoute_inv cfg m _ g hmem
  obtain ⟨hbp2WF, hvm2nd, hvers2⟩ := hentries (bp2, vm2) hm2
  have hv2WF : verWFb v2 = true := by
    rw [sortedKeys, mem_jsSortVers] at hv2s
    obtain ⟨q, hq, hq1⟩ := List.mem_map.mp hv2s
    rw [← hq1]
    exact hvers2 q hq
  obtain ⟨restb, hbpd, hbpns⟩ := bpWF_data bp hbpWF
  obtain ⟨restb2, hbp2d, hbp2ns⟩ := bpWF_data bp2 hbp2WF
  rw [chainVer] at hpath
  by_cases hd2 : (v2 == "default") = true
  · rw [if_pos hd2] at hpath
    simp only [versionedPathOf] at hpath
    have hdata := congrArg String.data hpath
    rw [strDataVPath, hbp2d] at hdata
    have hrest2 : restb2 = 'v' :: (prev.data ++ bp.data) := by
      have := List.cons.injEq '/' ('v' :: (prev.data ++ bp.data)) '/' restb2 ▸ hdata
      exact this.2.symm
    apply hbp2ns '/'
    · rw [hrest2]
      apply List.mem_cons_of_mem
      apply List.mem_append_right
      rw [hbpd]
      exact List.mem_cons_self _ _
    · rfl
  · have hd2f : (v2 == "default") = false := by simpa using hd2
    rw [if_neg hd2] at hpath
    simp only [versionedPathOf] at hpath
    have hdata := congrArg String.data hpath
    rw [strDataVPath, strDataVPath] at hdata
    have htail : prev.data ++ bp.data = v2.data ++ bp2.data := by
      have h1 := List.cons.injEq '/' ('v' :: (prev.data ++ bp.data)) '/'
        ('v' :: (v2.data ++ bp2.data)) ▸ hdata
      have h2 := List.cons.injEq 'v' (prev.data ++ bp.data) 'v' (v2.data ++ bp2.data) ▸ h1.2
      exact h2.2
    obtain ⟨hv2ne, hv2chars⟩ := verWF_no_slash v2 hv2WF hd2f
    by_cases hpd : (prev == "default") = true
    · have hprevs : prev = "default" := by simpa using hpd
      rw [hprevs] at htail
      rcases hv2d : v2.data with _ | ⟨c, tl⟩
      · exact hv2ne hv2d
      · have hhead : ('d' : Char) = c := by
          have := congrArg List.head? htail
          rw [hv2d] at this
          simpa using this
        have := hv2chars c (by rw [hv2d]; exact List.mem_cons_self c tl)
        rcases this.2 with hh | hh
        · rw [← hhead] at hh
          exact absurd hh (by decide)
        · rw [← hhead] at hh
          exact absurd hh (by decide)
    · have hpdf : (prev == "default") = false := by simpa using hpd
      obtain ⟨hprevne, hprevchars⟩ := verWF_no_slash prev hprevWF hpdf
      obtain ⟨hac, hbd⟩ := split_no_slash prev.data v2.data bp.data bp2.data
        (fun x hx => (hprevchars x hx).1) (fun x hx => (hv2chars x hx).1)
        (by rw [hbpd]; rfl) (by rw [hbp2d]; rfl) htail
      have hv2prev : v2 = prev := (strDataInj _ _ hac).symm
      have hbp2bp : bp2 = bp := (strDataInj _ _ hbd).symm
      rw [hbp2bp] at hm2
      have hvmeq : vm2 = vm := assoc_unique m bp vm2 vm hnodup hm2 hm
      rw [hgf, hvmeq, hv2prev] at hok
      rw [hok] at hfail
      exact Option.noConfusion hfail

/-- Witness for C10: version 2 of `/a` fails to load, yet the fallback from
`/v10/a` onto `/v2/a` is installed and nothing is mounted at `/v2/a`. -/
theorem fallback_installed_even_after_failed_predecessor_wit :
    Ev.mountFallback "/v10/a" "/v2/a" ∈ mountAll cfgC10 tblC3 ∧
    Ev.mountRoute "/v2/a" "f2" ∉ mountAll cfgC10 tblC3 := by
  have h := fallback_installed_even_after_failed_predecessor cfgC10 tblC3 "/a"
    [("2", "f2"), ("10", "f10")] 0 "10" "2" (LoadErr.simple "boom")
    ⟨by decide, by decide⟩ (by simp [tblC3]) (by decide) (by decide) (by decide)
  exact ⟨h.1, h.2 "f2"⟩

end Endurance
